import Mathlib

/-!
# Verification of the CireilClaw agent orchestrator core

Shallow embedding, in Lean 4, of the parts of the CireilClaw source that the
frozen claims are about, together with proofs settling each claim:

* `src/engine/index.ts` — `truncateToTurns`, `squashMessages`, and the
  per-iteration tool-dispatch / turn-termination logic of `Engine.runTurn`;
* `src/engine/tools/respond.ts`, `src/engine/tools/no-response.ts`;
* `src/util/paths.ts` — `sandboxToReal`, the virtual-path resolver;
* `src/channels/discord.ts` — `splitMessage`, the outbound chunker, and the
  turn-error rollback in `handleMessageCreate`;
* `src/db/sessions.ts` — the debounced `saveSession` / `flushAllSessions`
  machinery, `_flushSession` image externalization and `deleteSession` GC;
* `src/engine/tools/exec.ts` and `src/util/sandbox.ts` — the exec tool's
  validation pipeline;
* `src/scheduler/heartbeat.ts` — `runHeartbeat`.

JavaScript values are modelled as follows: strings are `String`, arrays are
`List`, numbers that stay small non-negative integers are `Nat`, objects with
a fixed shape are structures, `undefined`-able fields are `Option`, thrown
exceptions are `Except`, and JSON-ish tool outputs are association lists of
a small `JsVal` type.
-/

namespace CireilClaw

/-! ## Message model (src/engine/content.ts, src/engine/message.ts) -/

/-- `Role` from src/engine/role.ts: the discriminator of the `Message` union. -/
inductive Role where
  | user
  | assistant
  | toolResponse
deriving DecidableEq

/-- JSON-ish values appearing in tool outputs (a `Record<string, unknown>` in
the source).  `undefinedVal` stands for JavaScript `undefined`. -/
inductive JsVal where
  | bool (b : Bool)
  | str (s : String)
  | num (n : Int)
  | null
  | undefinedVal
deriving DecidableEq

/-- A tool output object: `Record<string, unknown>` in the source, modelled as
an association list from field name to value. -/
def JsObj : Type := List (String × JsVal)

instance : DecidableEq JsObj := by unfold JsObj; infer_instance

/-- Field access `obj["k"]` — absent keys read as `undefined`. -/
def JsObj.get (o : JsObj) (k : String) : JsVal :=
  match o.lookup k with
  | some v => v
  | none => .undefinedVal

/-- `Content` from src/engine/content.ts: the four content kinds. -/
inductive Content where
  | text (content : String)
  | image (mediaType : String) (data : List Nat)
  | toolCall (id : String) (name : String) (input : String)
  | toolResponse (id : String) (name : String) (output : JsObj)
deriving DecidableEq

/-- A `Content | Content[]` union field (message `content` in the source can be
a single content or an array). -/
inductive ContentArg where
  | one (c : Content)
  | arr (cs : List Content)
deriving DecidableEq

/-- The TS expression `Array.isArray(c) ? c : [c]` used by `squashMessages`. -/
def ContentArg.toList : ContentArg → List Content
  | .one c => [c]
  | .arr cs => cs

/-- `Message` from src/engine/message.ts: tagged union over roles.  `user`
messages additionally carry optional `id` and `persist` fields (dropped on
merge by `squashMessages`, exactly as in the source). -/
inductive Message where
  | user (content : ContentArg) (id : Option String) (persist : Option Bool)
  | assistant (content : ContentArg)
  | toolResponse (content : Content)
deriving DecidableEq

/-- The role discriminator of a message. -/
def Message.role : Message → Role
  | .user _ _ _ => .user
  | .assistant _ => .assistant
  | .toolResponse _ => .toolResponse

/-- The content of a message as a list (`Array.isArray ? c : [c]`). -/
def Message.contents : Message → List Content
  | .user c _ _ => c.toList
  | .assistant c => c.toList
  | .toolResponse c => [c]

/-! ## `truncateToTurns` (src/engine/index.ts lines 23-42)

The source builds `turns : Message[][]` with a loop: a user-role message (or
the first message) starts a new turn group, any other message is appended to
the current (last) group; then keeps `turns.slice(-maxTurns)` and flattens. -/

/-- One iteration of the grouping loop in `truncateToTurns`. -/
def turnStep (turns : List (List Message)) (msg : Message) : List (List Message) :=
  if msg.role = .user ∨ turns.isEmpty then
    turns ++ [[msg]]
  else
    turns.dropLast ++ [(turns.getLast?.getD []) ++ [msg]]

/-- The turn grouping built by the loop in `truncateToTurns`. -/
def groupTurns (messages : List Message) : List (List Message) :=
  messages.foldl turnStep []

/-- JavaScript `arr.slice(-m)`.  Note the quirk the source inherits: `-0 === 0`,
so `slice(-0)` is `slice(0)`, the whole array. -/
def sliceLast (l : List (List Message)) (m : Nat) : List (List Message) :=
  if m = 0 then l else l.drop (l.length - m)

/-- `truncateToTurns` from src/engine/index.ts. -/
def truncateToTurns (messages : List Message) (maxTurns : Nat) : List Message :=
  (sliceLast (groupTurns messages) maxTurns).flatten

/-- `MAX_TURNS` from src/engine/index.ts. -/
def MAX_TURNS : Nat := 30

/-- Does a message list begin with a user-role message? -/
def userStarts : List Message → Bool
  | [] => false
  | m :: _ => m.role = .user

/-- The number of turns contained in a message list, per the spec's reading:
a turn starts at each user-role message, or at the start of the list when the
list does not begin with a user message. -/
def countTurns (l : List Message) : Nat :=
  (l.filter (fun m => m.role = .user)).length +
    (if l ≠ [] ∧ userStarts l = false then 1 else 0)

/-! ## `squashMessages` (src/engine/index.ts lines 44-64) -/

/-- One iteration of the `squashMessages` loop: merge into the last result
element when roles match (user/user or assistant/assistant), else push. -/
def squashStep (result : List Message) (msg : Message) : List Message :=
  match result.getLast?, msg with
  | some (.user prev _ _), .user cur _ _ =>
      result.dropLast ++ [.user (.arr (prev.toList ++ cur.toList)) none none]
  | some (.assistant prev), .assistant cur =>
      result.dropLast ++ [.assistant (.arr (prev.toList ++ cur.toList))]
  | _, _ => result ++ [msg]

/-- `squashMessages` from src/engine/index.ts. -/
def squashMessages (messages : List Message) : List Message :=
  messages.foldl squashStep []

/-- The flattened content stream of a message list, each item tagged with the
role of the message that carried it. -/
def contentStream (l : List Message) : List (Role × Content) :=
  l.flatMap (fun m => m.contents.map (fun c => (m.role, c)))

/-- Two user messages, or two assistant messages, standing adjacent. -/
def adjacentSameRole : List Message → Bool
  | m₁ :: m₂ :: rest =>
      (m₁.role == m₂.role && (m₁.role == .user || m₁.role == .assistant)) ||
        adjacentSameRole (m₂ :: rest)
  | _ => false

/-- The bad-junction test between the last message of a prefix and the next
message: same role, and that role is user or assistant. -/
def junctionBad : Option Message → Message → Bool
  | none, _ => false
  | some last, m => last.role == m.role && (last.role == .user || last.role == .assistant)

theorem adjacentSameRole_cons_cons (m₁ m₂ : Message) (rest : List Message) :
    adjacentSameRole (m₁ :: m₂ :: rest) =
      ((m₁.role == m₂.role && (m₁.role == .user || m₁.role == .assistant)) ||
        adjacentSameRole (m₂ :: rest)) := rfl

theorem adjacentSameRole_snoc (l : List Message) (m : Message) :
    adjacentSameRole (l ++ [m]) = (adjacentSameRole l || junctionBad l.getLast? m) := by
  induction l with
  | nil => simp [adjacentSameRole, junctionBad]
  | cons a l ih =>
    cases l with
    | nil => simp [adjacentSameRole, junctionBad]
    | cons b l' =>
      show adjacentSameRole (a :: b :: (l' ++ [m])) = _
      rw [adjacentSameRole_cons_cons]
      have ih' : adjacentSameRole (b :: (l' ++ [m])) =
          (adjacentSameRole (b :: l') || junctionBad (b :: l').getLast? m) := by
        simpa using ih
      rw [ih', List.getLast?_cons_cons, adjacentSameRole_cons_cons, Bool.or_assoc]

theorem contentStream_append (l₁ l₂ : List Message) :
    contentStream (l₁ ++ l₂) = contentStream l₁ ++ contentStream l₂ := by
  simp [contentStream]

theorem contentStream_nil : contentStream [] = [] := rfl

theorem eq_dropLast_append_of_getLast? (acc : List Message) (x : Message)
    (h : acc.getLast? = some x) : acc = acc.dropLast ++ [x] := by
  cases acc with
  | nil => simp at h
  | cons a l =>
    have hne : a :: l ≠ [] := by simp
    rw [List.getLast?_eq_getLast _ hne, Option.some_inj] at h
    conv_lhs => rw [← List.dropLast_append_getLast hne]
    rw [h]

theorem junctionBad_congr (o : Option Message) (m₁ m₂ : Message)
    (h : m₁.role = m₂.role) : junctionBad o m₁ = junctionBad o m₂ := by
  cases o <;> simp [junctionBad, h]

theorem squashStep_adjacent (acc : List Message) (m : Message)
    (h : adjacentSameRole acc = false) :
    adjacentSameRole (squashStep acc m) = false := by
  rcases hg : acc.getLast? with _ | g
  · have hnil : acc = [] := by
      cases acc with
      | nil => rfl
      | cons a l => rw [List.getLast?_eq_getLast _ (by simp)] at hg; simp at hg
    subst hnil
    cases m <;> simp [squashStep, adjacentSameRole]
  · have hacc : acc = acc.dropLast ++ [g] := eq_dropLast_append_of_getLast? _ _ hg
    have h2 : adjacentSameRole acc.dropLast = false ∧
        junctionBad acc.dropLast.getLast? g = false := by
      rw [hacc, adjacentSameRole_snoc, Bool.or_eq_false_iff] at h
      exact h
    have h3 : adjacentSameRole acc = false := by rw [hacc, adjacentSameRole_snoc]; simp [h2.1, h2.2]
    cases g with
    | user prev i p =>
      cases m with
      | user cur i' p' =>
        simp only [squashStep, hg]
        rw [adjacentSameRole_snoc, Bool.or_eq_false_iff]
        exact ⟨h2.1, by rw [junctionBad_congr _ _ (Message.user prev i p) (by rfl)]; exact h2.2⟩
      | assistant c =>
        simp only [squashStep, hg]
        rw [adjacentSameRole_snoc, h3, hg]
        simp [junctionBad, Message.role]
      | toolResponse c =>
        simp only [squashStep, hg]
        rw [adjacentSameRole_snoc, h3, hg]
        simp [junctionBad, Message.role]
    | assistant prev =>
      cases m with
      | user cur i' p' =>
        simp only [squashStep, hg]
        rw [adjacentSameRole_snoc, h3, hg]
        simp [junctionBad, Message.role]
      | assistant c =>
        simp only [squashStep, hg]
        rw [adjacentSameRole_snoc, Bool.or_eq_false_iff]
        exact ⟨h2.1, by rw [junctionBad_congr _ _ (Message.assistant prev) (by rfl)]; exact h2.2⟩
      | toolResponse c =>
        simp only [squashStep, hg]
        rw [adjacentSameRole_snoc, h3, hg]
        simp [junctionBad, Message.role]
    | toolResponse prev =>
      cases m <;>
        · simp only [squashStep, hg]
          rw [adjacentSameRole_snoc, h3, hg]
          simp [junctionBad, Message.role]

theorem squashStep_contentStream (acc : List Message) (m : Message) :
    contentStream (squashStep acc m) = contentStream acc ++ contentStream [m] := by
  rcases hg : acc.getLast? with _ | g
  · have hnil : acc = [] := by
      cases acc with
      | nil => rfl
      | cons a l => rw [List.getLast?_eq_getLast _ (by simp)] at hg; simp at hg
    subst hnil
    cases m <;> simp [squashStep, contentStream]
  · have hacc : acc = acc.dropLast ++ [g] := eq_dropLast_append_of_getLast? _ _ hg
    cases g with
    | user prev i p =>
      cases m with
      | user cur i' p' =>
        simp only [squashStep, hg]
        conv_rhs => rw [hacc]
        rw [contentStream_append, contentStream_append, List.append_assoc]
        simp [contentStream, Message.contents, Message.role, ContentArg.toList]
      | assistant c => simp [squashStep, hg, contentStream_append]
      | toolResponse c => simp [squashStep, hg, contentStream_append]
    | assistant prev =>
      cases m with
      | user cur i' p' => simp [squashStep, hg, contentStream_append]
      | assistant c =>
        simp only [squashStep, hg]
        conv_rhs => rw [hacc]
        rw [contentStream_append, contentStream_append, List.append_assoc]
        simp [contentStream, Message.contents, Message.role, ContentArg.toList]
      | toolResponse c => simp [squashStep, hg, contentStream_append]
    | toolResponse prev =>
      cases m <;> simp [squashStep, hg, contentStream_append]

theorem squash_fold_adjacent (msgs acc : List Message)
    (h : adjacentSameRole acc = false) :
    adjacentSameRole (msgs.foldl squashStep acc) = false := by
  induction msgs generalizing acc with
  | nil => exact h
  | cons m rest ih => exact ih _ (squashStep_adjacent acc m h)

theorem squash_fold_contentStream (msgs acc : List Message) :
    contentStream (msgs.foldl squashStep acc) = contentStream acc ++ contentStream msgs := by
  induction msgs generalizing acc with
  | nil => simp [contentStream_nil]
  | cons m rest ih =>
    rw [List.foldl_cons, ih, squashStep_contentStream]
    have : contentStream (m :: rest) = contentStream [m] ++ contentStream rest := by
      simpa using contentStream_append [m] rest
    rw [this, List.append_assoc]

/-- Claim C5: `squashMessages` leaves no two adjacent user messages and no two
adjacent assistant messages, and the flattened role-tagged content stream of
the output equals that of the input (normalization, not reordering). -/
theorem c5_squash_messages (messages : List Message) :
    adjacentSameRole (squashMessages messages) = false ∧
      contentStream (squashMessages messages) = contentStream messages := by
  constructor
  · exact squash_fold_adjacent messages [] rfl
  · simpa [contentStream_nil] using squash_fold_contentStream messages []

/-! ## Properties of `truncateToTurns` -/

theorem turnStep_flatten (acc : List (List Message)) (m : Message) :
    (turnStep acc m).flatten = acc.flatten ++ [m] := by
  unfold turnStep
  split
  · simp
  · next h =>
    have hne : acc ≠ [] := by
      intro hnil
      subst hnil
      simp at h
    have hg : acc.getLast? = some (acc.getLast hne) := List.getLast?_eq_getLast _ hne
    conv_rhs => rw [← List.dropLast_append_getLast hne]
    simp [hg]

theorem groupTurns_flatten_fold (msgs : List Message) (acc : List (List Message)) :
    (msgs.foldl turnStep acc).flatten = acc.flatten ++ msgs := by
  induction msgs generalizing acc with
  | nil => simp
  | cons m rest ih => rw [List.foldl_cons, ih, turnStep_flatten]; simp

theorem groupTurns_flatten (msgs : List Message) : (groupTurns msgs).flatten = msgs := by
  simpa using groupTurns_flatten_fold msgs []

/-- The shape invariant of the turn grouping: every group is nonempty, every
group but possibly the first starts with a user message, and no group holds a
user message anywhere but at its head. -/
def goodGroups (turns : List (List Message)) : Prop :=
  (∀ g ∈ turns, g ≠ []) ∧
    (∀ g ∈ turns.tail, userStarts g = true) ∧
    (∀ g ∈ turns, ∀ m ∈ g.tail, m.role ≠ .user)

theorem userStarts_append (g t : List Message) (h : g ≠ []) :
    userStarts (g ++ t) = userStarts g := by
  cases g with
  | nil => exact absurd rfl h
  | cons a l => rfl

theorem tail_append_singleton {α : Type} (a : α) (l : List α) (x : α) :
    (a :: l ++ [x]).tail = l ++ [x] := rfl

theorem turnStep_good (acc : List (List Message)) (m : Message) (h : goodGroups acc) :
    goodGroups (turnStep acc m) := by
  obtain ⟨h1, h2, h3⟩ := h
  unfold turnStep
  split
  · next hguard =>
    refine ⟨?_, ?_, ?_⟩
    · intro g hgm
      rcases List.mem_append.mp hgm with hin | hin
      · exact h1 g hin
      · simp at hin; subst hin; simp
    · intro g hgm
      cases acc with
      | nil => simp at hgm
      | cons a rest =>
        rw [List.cons_append, List.tail_cons] at hgm
        rcases List.mem_append.mp hgm with hin | hin
        · exact h2 g hin
        · simp at hin
          subst hin
          have hu : m.role = .user := by
            rcases hguard with hu | habs
            · exact hu
            · simp at habs
          simp [userStarts, hu]
    · intro g hgm m' hm'
      rcases List.mem_append.mp hgm with hin | hin
      · exact h3 g hin m' hm'
      · simp at hin; subst hin; simp at hm'
  · next hguard =>
    push_neg at hguard
    have hne : acc ≠ [] := by
      intro hnil
      subst hnil
      simp at hguard
    have hnu : m.role ≠ .user := hguard.1
    have hg : acc.getLast? = some (acc.getLast hne) := List.getLast?_eq_getLast _ hne
    set last := acc.getLast hne with hlast
    have hgd : acc.getLast?.getD [] = last := by rw [hg]; rfl
    have hlne : last ≠ [] := h1 last (List.getLast_mem hne)
    have hacc : acc = acc.dropLast ++ [last] := by
      conv_lhs => rw [← List.dropLast_append_getLast hne]
    rw [hgd]
    refine ⟨?_, ?_, ?_⟩
    · intro g hgm
      rcases List.mem_append.mp hgm with hin | hin
      · exact h1 g ((List.dropLast_sublist _).subset hin)
      · simp at hin; subst hin; simp [hlne]
    · intro g hgm
      cases hd : acc.dropLast with
      | nil => rw [hd] at hgm; simp at hgm
      | cons d ds =>
        rw [hd, tail_append_singleton] at hgm
        have htail : acc.tail = ds ++ [last] := by
          conv_lhs => rw [hacc, hd]
          rfl
        rcases List.mem_append.mp hgm with hin | hin
        · exact h2 g (by rw [htail]; exact List.mem_append.mpr (Or.inl hin))
        · simp at hin
          subst hin
          rw [userStarts_append last [m] hlne]
          exact h2 last (by rw [htail]; exact List.mem_append.mpr (Or.inr (by simp)))
    · intro g hgm m' hm'
      rcases List.mem_append.mp hgm with hin | hin
      · exact h3 g ((List.dropLast_sublist _).subset hin) m' hm'
      · simp at hin
        subst hin
        obtain ⟨a, l, hal⟩ := List.exists_cons_of_ne_nil hlne
        rw [hal, tail_append_singleton] at hm'
        rcases List.mem_append.mp hm' with hin' | hin'
        · exact h3 last (List.getLast_mem hne) m' (by rw [hal]; exact hin')
        · simp at hin'; subst hin'; exact hnu

theorem goodGroups_groupTurns (msgs : List Message) : goodGroups (groupTurns msgs) := by
  have : ∀ acc, goodGroups acc → goodGroups (msgs.foldl turnStep acc) := by
    induction msgs with
    | nil => intro acc h; exact h
    | cons m rest ih => intro acc h; exact ih _ (turnStep_good acc m h)
  exact this [] ⟨by simp, by simp, by simp⟩

theorem filter_user_group (g : List Message) (hne : g ≠ [])
    (htail : ∀ m ∈ g.tail, m.role ≠ .user) :
    (g.filter (fun m => m.role = .user)).length = if userStarts g then 1 else 0 := by
  cases g with
  | nil => exact absurd rfl hne
  | cons m t =>
    have ht : t.filter (fun m => m.role = .user) = [] := by
      rw [List.filter_eq_nil_iff]
      intro a ha
      simpa using htail a ha
    by_cases hu : m.role = .user
    · simp [List.filter_cons, hu, ht, userStarts]
    · simp [List.filter_cons, hu, ht, userStarts]

theorem filter_user_flatten (gs : List (List Message))
    (h1 : ∀ g ∈ gs, g ≠ []) (h2 : ∀ g ∈ gs, userStarts g = true)
    (h3 : ∀ g ∈ gs, ∀ m ∈ g.tail, m.role ≠ .user) :
    (gs.flatten.filter (fun m => m.role = .user)).length = gs.length := by
  induction gs with
  | nil => simp
  | cons g rest ih =>
    rw [List.flatten_cons, List.filter_append, List.length_append]
    rw [filter_user_group g (h1 g (by simp)) (h3 g (by simp))]
    rw [h2 g (by simp)]
    rw [ih (fun g hg => h1 g (by simp [hg])) (fun g hg => h2 g (by simp [hg]))
      (fun g hg => h3 g (by simp [hg]))]
    simp only [eq_self_iff_true, if_true, List.length_cons]
    omega

theorem countTurns_flatten (gs : List (List Message))
    (h1 : ∀ g ∈ gs, g ≠ []) (h2 : ∀ g ∈ gs.tail, userStarts g = true)
    (h3 : ∀ g ∈ gs, ∀ m ∈ g.tail, m.role ≠ .user) :
    countTurns gs.flatten = gs.length := by
  cases gs with
  | nil => simp [countTurns]
  | cons g rest =>
    have hgne : g ≠ [] := h1 g (by simp)
    have hrest1 : ∀ h ∈ rest, h ≠ [] := fun h hh => h1 h (by simp [hh])
    have hrest2 : ∀ h ∈ rest, userStarts h = true := fun h hh => h2 h (by simpa using hh)
    have hrest3 : ∀ h ∈ rest, ∀ m ∈ h.tail, m.role ≠ .user :=
      fun h hh => h3 h (by simp [hh])
    have hfr := filter_user_flatten rest hrest1 hrest2 hrest3
    have hfg := filter_user_group g hgne (h3 g (by simp))
    have hne2 : g ++ rest.flatten ≠ [] := by
      intro habs
      exact hgne (List.append_eq_nil.mp habs).1
    rw [List.flatten_cons]
    unfold countTurns
    rw [List.filter_append, List.length_append, hfg, hfr,
      userStarts_append g rest.flatten hgne]
    by_cases hu : userStarts g = true
    · rw [if_pos hu, if_neg (by simp [hu])]
      simp only [List.length_cons]
      omega
    · simp only [Bool.not_eq_true] at hu
      rw [if_neg (by simp [hu]), if_pos (by exact ⟨hne2, hu⟩)]
      simp only [List.length_cons]
      omega

/-- Claim C4 counterexample: the claim quantifies over every `maxTurns` bound,
but JavaScript's `slice(-0)` is `slice(0)`, so `truncateToTurns(msgs, 0)`
returns the whole list — here one turn, which is more than `maxTurns = 0`. -/
theorem c4_truncate_to_turns_claim_false :
    countTurns (truncateToTurns [Message.user (.one (.text "ping")) none none] 0) = 1 := by
  decide

/-- Claim C4 (amended: for every bound `maxTurns ≥ 1`): `truncateToTurns`
returns a suffix of the input containing at most `maxTurns` turns, and never
splits a turn — the output is the flattening of a trailing run of whole turn
groups, and whenever anything was dropped every kept group opens with its
user message. -/
theorem c4_truncate_to_turns (messages : List Message) (maxTurns : Nat)
    (h : 1 ≤ maxTurns) :
    (∃ dropped kept,
        groupTurns messages = dropped ++ kept ∧
        kept.length ≤ maxTurns ∧
        truncateToTurns messages maxTurns = kept.flatten ∧
        (dropped ≠ [] → ∀ g ∈ kept, userStarts g = true)) ∧
      (∃ pre, messages = pre ++ truncateToTurns messages maxTurns) ∧
      countTurns (truncateToTurns messages maxTurns) ≤ maxTurns := by
  obtain ⟨g1, g2, g3⟩ := goodGroups_groupTurns messages
  set turns := groupTurns messages with hturns
  set k := turns.length - maxTurns with hk
  have hmz : maxTurns ≠ 0 := by omega
  have hslice : sliceLast turns maxTurns = turns.drop k := by
    simp [sliceLast, hmz]
  have htrunc : truncateToTurns messages maxTurns = (turns.drop k).flatten := by
    rw [truncateToTurns, ← hturns, hslice]
  have hsplit : turns = turns.take k ++ turns.drop k := (List.take_append_drop k turns).symm
  have hkeptlen : (turns.drop k).length ≤ maxTurns := by
    rw [List.length_drop]
    omega
  have hmemdrop : ∀ g ∈ turns.drop k, g ∈ turns := fun g hg => List.mem_of_mem_drop hg
  have hmemtail : ∀ j, 1 ≤ j → ∀ g ∈ turns.drop j, g ∈ turns.tail := by
    intro j hj g hg
    have : turns.drop j = turns.tail.drop (j - 1) := by
      rw [← List.drop_one, List.drop_drop]
      congr 1
      omega
    rw [this] at hg
    exact List.mem_of_mem_drop hg
  refine ⟨⟨turns.take k, turns.drop k, hsplit, hkeptlen, htrunc, ?_⟩, ⟨(turns.take k).flatten, ?_⟩, ?_⟩
  · intro hd g hg
    have hk1 : 1 ≤ k := by
      by_contra habs
      have : k = 0 := by omega
      rw [this] at hd
      simp at hd
    exact g2 g (hmemtail k hk1 g hg)
  · rw [htrunc]
    conv_lhs => rw [← groupTurns_flatten messages, ← hturns, hsplit]
    rw [List.flatten_append]
  · rw [htrunc]
    have := countTurns_flatten (turns.drop k)
      (fun g hg => g1 g (hmemdrop g hg))
      (fun g hg => by
        rw [List.tail_drop] at hg
        exact g2 g (hmemtail (k + 1) (by omega) g hg))
      (fun g hg => g3 g (hmemdrop g hg))
    rw [this]
    exact hkeptlen

/-- Witness for `c4_truncate_to_turns` at a concrete input. -/
theorem c4_truncate_to_turns_witness :
    1 ≤ 1 ∧
      ((∃ dropped kept,
          groupTurns [Message.user (.one (.text "a")) none none,
            Message.assistant (.one (.text "b")),
            Message.user (.one (.text "c")) none none] = dropped ++ kept ∧
          kept.length ≤ 1 ∧
          truncateToTurns [Message.user (.one (.text "a")) none none,
            Message.assistant (.one (.text "b")),
            Message.user (.one (.text "c")) none none] 1 = kept.flatten ∧
          (dropped ≠ [] → ∀ g ∈ kept, userStarts g = true)) ∧
        (∃ pre, [Message.user (.one (.text "a")) none none,
            Message.assistant (.one (.text "b")),
            Message.user (.one (.text "c")) none none] =
          pre ++ truncateToTurns [Message.user (.one (.text "a")) none none,
            Message.assistant (.one (.text "b")),
            Message.user (.one (.text "c")) none none] 1) ∧
        countTurns (truncateToTurns [Message.user (.one (.text "a")) none none,
          Message.assistant (.one (.text "b")),
          Message.user (.one (.text "c")) none none] 1) ≤ 1) :=
  ⟨by decide, c4_truncate_to_turns _ 1 (by decide)⟩

/-! ## Turn termination (src/engine/index.ts lines 289-324) and the
`respond` / `no-response` tools (src/engine/tools/) -/

/-- The output object returned by the `no-response` tool
(src/engine/tools/no-response.ts line 13): `{ final: true }`. -/
def noResponseOutput : JsObj := [("final", .bool true)]

/-- The output object returned by the `respond` tool
(src/engine/tools/respond.ts line 25): `{ final, sent: true }`. -/
def respondOutput (final : Bool) : JsObj := [("final", .bool final), ("sent", .bool true)]

/-- The done-flag update performed for each tool call in `Engine.runTurn`
(src/engine/index.ts line 312):
`if (call.name === "respond" && result["final"] !== false) done = true`. -/
def markDone (done : Bool) (callName : String) (output : JsObj) : Bool :=
  if callName = "respond" ∧ output.get "final" ≠ .bool false then true else done

/-- The done flag after the tool-call loop of one `runTurn` iteration, given
the (name, output) pairs of the iteration's tool calls in order. -/
def turnDone (calls : List (String × JsObj)) : Bool :=
  calls.foldl (fun d c => markDone d c.1 c.2) false

/-- Claim C1 (code bug): src/engine/index.ts line 312 tests only
`call.name === "respond"`, never `no-response`.  A `no-response` call whose
output is `{final: true}` — exactly what the tool returns — does not mark the
turn done, so the engine loops and calls the provider again instead of
terminating, while a `respond` call with the same `final` field does mark it
done.  This contradicts the spec and the tool's own description ("This ends
your turn without sending any message"). -/
theorem c1_no_response_not_terminal :
    turnDone [("no-response", noResponseOutput)] = false ∧
      noResponseOutput.get "final" = .bool true ∧
      turnDone [("respond", respondOutput true)] = true := by
  decide

/-! ## Unknown-tool dispatch (src/engine/index.ts lines 291-295) and the
caller rollback (src/channels/discord.ts lines 376-403) -/

/-- The tool calls of an assistant message, in order
(`content.filter(it => it.type === "toolCall")`): (id, name, input) triples. -/
def toolCallsOf (m : Message) : List (String × String × String) :=
  m.contents.filterMap (fun c =>
    match c with
    | .toolCall id name input => some (id, name, input)
    | _ => none)

/-- The tool-call dispatch loop of one `runTurn` iteration.  `registry` tells
whether a name is registered (`toolRegistry[call.name] !== undefined`);
`execTool` abstracts `def.execute(call.input, ctx)`.  An unregistered name
throws `Unknown tool: {name}`; otherwise a `toolResponse` message is queued
for each call in order and the done flag is accumulated as in `markDone`. -/
def dispatchCalls (registry : String → Bool) (execTool : String → String → String → JsObj) :
    List (String × String × String) → Except String (List Message × Bool)
  | [] => .ok ([], false)
  | (id, name, input) :: rest =>
      if registry name then
        let result := execTool id name input
        match dispatchCalls registry execTool rest with
        | .ok (msgs, done) =>
            .ok (Message.toolResponse (.toolResponse id name result) :: msgs,
              markDone done name result || done)
        | .error e => .error e
      else
        .error ("Unknown tool: " ++ name)

/-- One `runTurn` iteration after the provider call: commit the pending tool
messages, append the assistant message, then dispatch its tool calls.  On an
unknown tool the exception propagates (the history mutation has already
happened, as in the source). -/
def runTurnDispatch (registry : String → Bool) (execTool : String → String → String → JsObj)
    (history pending : List Message) (assistantMsg : Message) :
    Except String (List Message × List Message × Bool) :=
  match dispatchCalls registry execTool (toolCallsOf assistantMsg) with
  | .ok (responses, done) => .ok (history ++ pending ++ [assistantMsg], responses, done)
  | .error e => .error e

/-- `handleMessageCreate`'s turn handling (src/channels/discord.ts): record the
history length, push the user message, run the turn; when the turn throws,
set `session.history.length = historyLengthBeforeTurn`, rolling back both the
user message and everything the failed turn appended. -/
def handleMessageTurn (registry : String → Bool) (execTool : String → String → String → JsObj)
    (h0 : List Message) (userMsg : Message) (pending : List Message)
    (assistantMsg : Message) : List Message :=
  let h1 := h0 ++ [userMsg]
  match runTurnDispatch registry execTool h1 pending assistantMsg with
  | .ok (h, _, _) => h
  | .error _ => (h1 ++ pending ++ [assistantMsg]).take h0.length

theorem dispatchCalls_error_of_unknown (registry : String → Bool)
    (execTool : String → String → String → JsObj)
    (calls : List (String × String × String))
    (h : ∃ c ∈ calls, registry c.2.1 = false) :
    ∃ e, dispatchCalls registry execTool calls = .error e := by
  induction calls with
  | nil => simp at h
  | cons c rest ih =>
    obtain ⟨c', hc', hreg⟩ := h
    obtain ⟨id, name, input⟩ := c
    by_cases hr : registry name = true
    · have hc'' : c' ∈ rest := by
        rcases List.mem_cons.mp hc' with heq | hmem
        · subst heq; rw [hreg] at hr; exact absurd hr (by simp)
        · exact hmem
      obtain ⟨e, he⟩ := ih ⟨c', hc'', hreg⟩
      refine ⟨e, ?_⟩
      simp only [dispatchCalls, hr, if_true, he]
    · refine ⟨"Unknown tool: " ++ name, ?_⟩
      simp only [Bool.not_eq_true] at hr
      simp [dispatchCalls, hr]

/-- Claim C10: when the assistant message contains a tool call whose name is
not registered, the engine iteration throws (it never produces a
`{success:false}`-style tool output for the model), and the Discord caller's
rollback restores the session history to exactly its pre-turn state. -/
theorem c10_unknown_tool_aborts (registry : String → Bool)
    (execTool : String → String → String → JsObj)
    (h0 : List Message) (userMsg : Message) (pending : List Message)
    (assistantMsg : Message)
    (h : ∃ c ∈ toolCallsOf assistantMsg, registry c.2.1 = false) :
    (∃ e, runTurnDispatch registry execTool (h0 ++ [userMsg]) pending assistantMsg =
      .error e) ∧
      handleMessageTurn registry execTool h0 userMsg pending assistantMsg = h0 := by
  obtain ⟨e, he⟩ := dispatchCalls_error_of_unknown registry execTool
    (toolCallsOf assistantMsg) h
  have hrun : runTurnDispatch registry execTool (h0 ++ [userMsg]) pending assistantMsg =
      .error e := by
    simp [runTurnDispatch, he]
  refine ⟨⟨e, hrun⟩, ?_⟩
  simp only [handleMessageTurn, hrun]
  have : h0 ++ [userMsg] ++ pending ++ [assistantMsg] =
      h0 ++ ([userMsg] ++ pending ++ [assistantMsg]) := by simp
  rw [this, List.take_left]

/-- Witness for `c10_unknown_tool_aborts` at a concrete input: the registry
knows only `respond`, the assistant calls `made-up-tool`. -/
theorem c10_unknown_tool_aborts_witness :
    (∃ c ∈ toolCallsOf (Message.assistant (.arr [.toolCall "1" "made-up-tool" "{}"])),
        (fun n => n == "respond") c.2.1 = false) ∧
      ((∃ e, runTurnDispatch (fun n => n == "respond") (fun _ _ _ => [])
          ([Message.user (.one (.text "hi")) none none] ++
            [Message.user (.one (.text "go")) none none]) []
          (Message.assistant (.arr [.toolCall "1" "made-up-tool" "{}"])) = .error e) ∧
        handleMessageTurn (fun n => n == "respond") (fun _ _ _ => [])
          [Message.user (.one (.text "hi")) none none]
          (Message.user (.one (.text "go")) none none) []
          (Message.assistant (.arr [.toolCall "1" "made-up-tool" "{}"])) =
          [Message.user (.one (.text "hi")) none none]) :=
  ⟨by decide, c10_unknown_tool_aborts _ _ _ _ _ _ (by decide)⟩

/-! ## Heartbeat (src/scheduler/heartbeat.ts lines 92-148) -/

/-- The sentinel `HEARTBEAT_OK` from src/scheduler/heartbeat.ts. -/
def HEARTBEAT_OK : String := "HEARTBEAT_OK"

/-- The transient send filter installed by `runHeartbeat`: classify the first
content as OK when its trimmed text equals `HEARTBEAT_OK`, then pass or
suppress delivery per the configured visibility. -/
def heartbeatFilter (showOk showAlerts : Bool) (content : String) : Bool :=
  if content.trim = HEARTBEAT_OK then showOk else showAlerts

/-- The heartbeat user message pushed before the turn
(`[HEARTBEAT] Evaluate your heartbeat checklist.\n\n{checklist}`). -/
def heartbeatMessage (checklist : String) : Message :=
  .user (.one (.text ("[HEARTBEAT] Evaluate your heartbeat checklist.\n\n" ++ checklist)))
    none none

/-- The per-session state touched by `runHeartbeat`: the history, the busy
gate, and the optional send filter. -/
structure HbSession where
  history : List Message
  busy : Bool
  sendFilter : Option (String → Bool)

/-- The result of a heartbeat run: the final session state, and the state that
was handed to `saveSession` in the `finally` block. -/
structure HbOutcome where
  session : HbSession
  saved : Option HbSession

/-- `runHeartbeat` from the point where the target session is acquired
(src/scheduler/heartbeat.ts lines 92-148): set `busy`, stash the previous
`sendFilter` and install the heartbeat filter, push the heartbeat user
message, run the turn; on error truncate the history back to its pre-push
length; in the `finally` block restore the filter, clear `busy` and call
`saveSession`.  The engine turn is abstracted as `turn`, which returns the
mutated history — `.error` when `runTurn` throws (the payload is the history
at throw time, since the engine mutates in place). -/
def runHeartbeatAcquired (s : HbSession) (checklist : String) (showOk showAlerts : Bool)
    (turn : List Message → Except (List Message) (List Message)) : HbOutcome :=
  let previousFilter := s.sendFilter
  let historyLengthBefore := s.history.length
  let h1 := s.history ++ [heartbeatMessage checklist]
  match turn h1 with
  | .ok h2 =>
      let final : HbSession :=
        { history := h2, busy := false, sendFilter := previousFilter }
      { session := final, saved := some final }
  | .error h2 =>
      let final : HbSession :=
        { history := h2.take historyLengthBefore, busy := false,
          sendFilter := previousFilter }
      { session := final, saved := some final }

/-- The engine only ever appends to `session.history` during a turn: whatever
the turn returns (or leaves behind when it throws) extends its input. -/
def TurnExtendsHistory (turn : List Message → Except (List Message) (List Message)) : Prop :=
  ∀ h, (∀ h', turn h = .ok h' → ∃ ext, h' = h ++ ext) ∧
    (∀ h', turn h = .error h' → ∃ ext, h' = h ++ ext)

/-- Claim C9: for every heartbeat fire that acquires its target session — if
the turn throws, the history is rolled back to exactly its pre-heartbeat
state (the injected heartbeat message removed); and in every case the
previous `sendFilter` is restored, `busy` is cleared, and the resulting
session state is handed to `saveSession` before the run returns. -/
theorem c9_heartbeat_finalizer (s : HbSession) (checklist : String)
    (showOk showAlerts : Bool)
    (turn : List Message → Except (List Message) (List Message))
    (hext : TurnExtendsHistory turn) :
    (∀ h', turn (s.history ++ [heartbeatMessage checklist]) = .error h' →
        (runHeartbeatAcquired s checklist showOk showAlerts turn).session.history =
          s.history) ∧
      (runHeartbeatAcquired s checklist showOk showAlerts turn).session.sendFilter =
        s.sendFilter ∧
      (runHeartbeatAcquired s checklist showOk showAlerts turn).session.busy = false ∧
      (runHeartbeatAcquired s checklist showOk showAlerts turn).saved =
        some (runHeartbeatAcquired s checklist showOk showAlerts turn).session := by
  refine ⟨?_, ?_, ?_, ?_⟩
  · intro h' h
    simp only [runHeartbeatAcquired, h]
    obtain ⟨ext, hh⟩ := (hext (s.history ++ [heartbeatMessage checklist])).2 h' h
    simp only [hh]
    have : s.history ++ [heartbeatMessage checklist] ++ ext =
        s.history ++ ([heartbeatMessage checklist] ++ ext) := by simp
    rw [this, List.take_left]
  · cases hturn : turn (s.history ++ [heartbeatMessage checklist]) <;>
      simp [runHeartbeatAcquired, hturn]
  · cases hturn : turn (s.history ++ [heartbeatMessage checklist]) <;>
      simp [runHeartbeatAcquired, hturn]
  · cases hturn : turn (s.history ++ [heartbeatMessage checklist]) <;>
      simp [runHeartbeatAcquired, hturn]

/-- A concrete turn that throws after appending an assistant message. -/
def demoTurnBoom : List Message → Except (List Message) (List Message) :=
  fun h => .error (h ++ [Message.assistant (.one (.text "boom"))])

/-- A concrete session for the heartbeat witness. -/
def demoHbSession : HbSession :=
  ⟨[Message.user (.one (.text "hello")) none none], false, some (fun _ => true)⟩

/-- Witness for `c9_heartbeat_finalizer` at a concrete input: a session with a
previous filter, and a turn that throws after appending an assistant message. -/
theorem c9_heartbeat_finalizer_witness :
    TurnExtendsHistory demoTurnBoom ∧
      ((∀ h', demoTurnBoom (demoHbSession.history ++ [heartbeatMessage "check"]) =
            .error h' →
          (runHeartbeatAcquired demoHbSession "check" false true demoTurnBoom).session.history =
            demoHbSession.history) ∧
        (runHeartbeatAcquired demoHbSession "check" false true demoTurnBoom).session.sendFilter =
          demoHbSession.sendFilter ∧
        (runHeartbeatAcquired demoHbSession "check" false true demoTurnBoom).session.busy =
          false ∧
        (runHeartbeatAcquired demoHbSession "check" false true demoTurnBoom).saved =
          some (runHeartbeatAcquired demoHbSession "check" false true demoTurnBoom).session) := by
  have hext : TurnExtendsHistory demoTurnBoom := by
    intro h
    constructor
    · intro h' hh
      exact absurd hh (by simp [demoTurnBoom])
    · intro h' hh
      refine ⟨[Message.assistant (.one (.text "boom"))], ?_⟩
      simp only [demoTurnBoom, Except.error.injEq] at hh
      exact hh.symm
  exact ⟨hext, c9_heartbeat_finalizer demoHbSession "check" false true demoTurnBoom hext⟩

/-! ## Debounced session write-back (src/db/sessions.ts lines 135-169)

`saveSession` keys a 2 s timer by `agentSlug:sessionId`, cancelling any prior
timer for that key; the timer's flush callback deletes the key and runs
`_flushSession`.  `flushAllSessions` cancels every timer and runs every flush
callback synchronously.  The model tracks the pending-timer map, the storage
rows (upserted by `_flushSession`), and a chronological log of the writes that
reached storage.  Session snapshots are abstracted as strings. -/

/-- `DEBOUNCE_MS` from src/db/sessions.ts. -/
def DEBOUNCE_MS : Nat := 2000

/-- The timer key `${agentSlug}:${session.id()}`. -/
def saveKey (agentSlug sessionId : String) : String := agentSlug ++ ":" ++ sessionId

/-- The debounce-layer state: `pending` models the `_pending` map (key, timer
expiry, captured session snapshot); `stored` the sessions table rows by key;
`writeLog` every write that reached storage, in order. -/
structure DbState where
  pending : List (String × Nat × String)
  stored : List (String × String)
  writeLog : List (String × String)
deriving DecidableEq

/-- Events acting on the debounce layer: a `saveSession` call, a timer firing,
and a `flushAllSessions` call, each stamped with wall-clock time. -/
inductive DbEvent where
  | save (t : Nat) (key : String) (s : String)
  | fire (t : Nat) (key : String)
  | flushAll (t : Nat)
deriving DecidableEq

/-- Remove a key's entry (`clearTimeout` + `_pending.delete`). -/
def eraseKey (pending : List (String × Nat × String)) (k : String) :
    List (String × Nat × String) :=
  pending.filter (fun p => p.1 ≠ k)

/-- Upsert a storage row (the `onConflictDoUpdate` write of `_flushSession`). -/
def upsertRow (stored : List (String × String)) (k v : String) : List (String × String) :=
  (k, v) :: stored.filter (fun p => p.1 ≠ k)

/-- The flush callback for key `k` holding snapshot `s`: delete the pending
entry, then `_flushSession` writes the row. -/
def fireEntry (st : DbState) (k s : String) : DbState :=
  { pending := eraseKey st.pending k
    stored := upsertRow st.stored k s
    writeLog := st.writeLog ++ [(k, s)] }

/-- `saveSession`: cancel any prior timer for the key and arm a fresh
`DEBOUNCE_MS` timer capturing the current session snapshot. -/
def doSave (st : DbState) (t : Nat) (k s : String) : DbState :=
  { st with pending := eraseKey st.pending k ++ [(k, t + DEBOUNCE_MS, s)] }

/-- A timer firing for key `k` at time `t`: it has effect only if the key is
still armed and its expiry has been reached (a cancelled timer cannot fire). -/
def doFire (st : DbState) (t : Nat) (k : String) : DbState :=
  match st.pending.find? (fun p => p.1 = k) with
  | some (_, e, s) => if e ≤ t then fireEntry st k s else st
  | none => st

/-- `flushAllSessions`: cancel all timers and run every flush callback. -/
def doFlushAll (st : DbState) : DbState :=
  st.pending.foldl (fun acc p => fireEntry acc p.1 p.2.2) st

/-- Run a sequence of debounce events. -/
def runEvents (st : DbState) : List DbEvent → DbState
  | [] => st
  | .save t k s :: rest => runEvents (doSave st t k s) rest
  | .fire t k :: rest => runEvents (doFire st t k) rest
  | .flushAll _ :: rest => runEvents (doFlushAll st) rest

/-- The tail of a trace after the single armed timer for key `k` has fired:
only timer-fire attempts (all no-ops, the map is empty) and the final
`flushAllSessions`. -/
inductive PostTrace (k : String) : List DbEvent → Prop
  | flush (T : Nat) : PostTrace k [.flushAll T]
  | fire (t' : Nat) (k' : String) (rest : List DbEvent) (h : PostTrace k rest) :
      PostTrace k (.fire t' k' :: rest)

/-- A debounced-call trace for key `k`: the key is armed at time `t` with
snapshot `s`; every further `saveSession` for the key arrives strictly less
than `DEBOUNCE_MS` after the previous one (re-arming with its snapshot); timer
fires before expiry are allowed anywhere (they are no-ops); the trace ends with
`flushAllSessions`, or with the real timer expiry followed by a `PostTrace`.
`sFin` is the snapshot of the last `saveSession` call. -/
inductive DebTrace (k : String) : Nat → String → String → List DbEvent → Prop
  | flush (t : Nat) (s : String) (T : Nat) : DebTrace k t s s [.flushAll T]
  | save (t t' : Nat) (s s' sFin : String) (rest : List DbEvent)
      (h1 : t ≤ t') (h2 : t' < t + DEBOUNCE_MS)
      (htail : DebTrace k t' s' sFin rest) : DebTrace k t s sFin (.save t' k s' :: rest)
  | fireNoop (t t' : Nat) (k' : String) (s sFin : String) (rest : List DbEvent)
      (h1 : t ≤ t') (h2 : t' < t + DEBOUNCE_MS)
      (htail : DebTrace k t s sFin rest) : DebTrace k t s sFin (.fire t' k' :: rest)
  | fireReal (t t' : Nat) (s : String) (rest : List DbEvent)
      (h : t + DEBOUNCE_MS ≤ t') (htail : PostTrace k rest) :
      DebTrace k t s s (.fire t' k :: rest)

theorem runEvents_post (k : String) (rest : List DbEvent) (h : PostTrace k rest) :
    ∀ st : DbState, st.pending = [] → runEvents st rest = st := by
  induction h with
  | flush T =>
    intro st hp
    simp [runEvents, doFlushAll, hp]
  | fire t' k' rest h ih =>
    intro st hp
    have : doFire st t' k' = st := by
      simp [doFire, hp]
    rw [runEvents, this]
    exact ih st hp

theorem runEvents_debounced (k : String) (t : Nat) (s sFin : String)
    (rest : List DbEvent) (h : DebTrace k t s sFin rest) :
    ∀ st : DbState, st.pending = [(k, t + DEBOUNCE_MS, s)] →
      runEvents st rest =
        { pending := []
          stored := upsertRow st.stored k sFin
          writeLog := st.writeLog ++ [(k, sFin)] } := by
  induction h with
  | flush t s T =>
    intro st hp
    simp [runEvents, doFlushAll, hp, fireEntry, eraseKey]
  | save t t' s s' sFin rest h1 h2 htail ih =>
    intro st hp
    rw [runEvents]
    have harm : doSave st t' k s' =
        { st with pending := [(k, t' + DEBOUNCE_MS, s')] } := by
      simp [doSave, eraseKey, hp]
    rw [harm]
    exact ih _ rfl
  | fireNoop t t' k' s sFin rest h1 h2 htail ih =>
    intro st hp
    rw [runEvents]
    have hnoop : doFire st t' k' = st := by
      by_cases hk : k = k'
      · subst hk
        unfold doFire
        rw [hp, List.find?_cons_of_pos _ (by simp)]
        show (if t + DEBOUNCE_MS ≤ t' then fireEntry st k s else st) = st
        rw [if_neg (by omega)]
      · unfold doFire
        rw [hp, List.find?_cons_of_neg _ (by simp [hk])]
        rfl
    rw [hnoop]
    exact ih st hp
  | fireReal t t' s rest h htail =>
    intro st hp
    rw [runEvents]
    have hfire : doFire st t' k = fireEntry st k s := by
      unfold doFire
      rw [hp, List.find?_cons_of_pos _ (by simp)]
      show (if t + DEBOUNCE_MS ≤ t' then fireEntry st k s else st) = fireEntry st k s
      rw [if_pos (by omega)]
    rw [hfire]
    have hpe : (fireEntry st k s).pending = [] := by
      simp only [fireEntry]
      rw [hp]
      simp [eraseKey]
    rw [runEvents_post k rest htail _ hpe]
    unfold fireEntry
    rw [hp]
    simp [eraseKey]

/-- Claim C6: for a sequence of `saveSession` calls on one key whose
consecutive calls are less than 2 s apart, exactly one write reaches storage
(the write log gains exactly one entry, carrying the last call's snapshot),
and once the trace's `flushAllSessions` has run no pending timer remains and
the stored row holds the state passed to the last `saveSession` call. -/
theorem c6_debounced_save (k : String) (t : Nat) (s sFin : String)
    (rest : List DbEvent) (h : DebTrace k t s sFin rest) :
    runEvents ⟨[], [], []⟩ (.save t k s :: rest) =
      { pending := [], stored := [(k, sFin)], writeLog := [(k, sFin)] } := by
  rw [runEvents]
  have harm : doSave ⟨[], [], []⟩ t k s =
      ⟨[(k, t + DEBOUNCE_MS, s)], [], []⟩ := by
    simp [doSave, eraseKey]
  rw [harm]
  rw [runEvents_debounced k t s sFin rest h _ rfl]
  simp [upsertRow]

/-- Witness for `c6_debounced_save`: three rapid saves (0 ms, 1000 ms, 1900 ms)
followed by `flushAllSessions` at 2500 ms produce exactly one write, holding
the third snapshot. -/
theorem c6_debounced_save_witness :
    runEvents ⟨[], [], []⟩
        [.save 0 (saveKey "agent" "discord:42") "h1",
          .save 1000 (saveKey "agent" "discord:42") "h2",
          .save 1900 (saveKey "agent" "discord:42") "h3",
          .flushAll 2500] =
      { pending := [], stored := [(saveKey "agent" "discord:42", "h3")],
        writeLog := [(saveKey "agent" "discord:42", "h3")] } := by
  have h : DebTrace (saveKey "agent" "discord:42") 0 "h1" "h3"
      [.save 1000 (saveKey "agent" "discord:42") "h2",
        .save 1900 (saveKey "agent" "discord:42") "h3",
        .flushAll 2500] := by
    refine .save 0 1000 "h1" "h2" "h3" _ (by omega) (by unfold DEBOUNCE_MS; omega) ?_
    refine .save 1000 1900 "h2" "h3" "h3" _ (by omega) (by unfold DEBOUNCE_MS; omega) ?_
    exact .flush 1900 "h3" 2500
  exact c6_debounced_save _ 0 "h1" "h3" _ h

/-! ## Content-addressed image files (src/db/sessions.ts lines 19-37, 58-90,
171-190, 253-290)

`_flushSession` walks the history, replaces each image content by an
`image_ref` whose id is the BLAKE3 hex of the bytes, writes the bytes to
`{agent_root}/images/{id}.{ext}` only when that file is absent, and upserts an
`images(id, sessionId)` row with `onConflictDoNothing` (composite primary key
`(id, sessionId)`).  `deleteSession` unlinks exactly the files of referenced
images whose id has no remaining row with a different sessionId, then deletes
the session's rows.  The BLAKE3 hash is abstracted as a function parameter. -/

/-- `MEDIA_TYPE_EXT` lookup with the `.bin` fallback from `imagePath`. -/
def mediaTypeExt (mt : String) : String :=
  if mt = "image/gif" then ".gif"
  else if mt = "image/jpeg" then ".jpg"
  else if mt = "image/png" then ".png"
  else if mt = "image/webp" then ".webp"
  else ".bin"

/-- `imagePath(agentSlug, id, mediaType)`: `{agent_root}/images/{id}{ext}`
(the per-agent root is rendered as the slug prefix). -/
def imagePath (agentSlug id mediaType : String) : String :=
  agentSlug ++ "/images/" ++ id ++ mediaTypeExt mediaType

/-- A row of the `images` table. -/
structure ImgRow where
  agentSlug : String
  id : String
  mediaType : String
  sessionId : String
deriving DecidableEq

/-- The image-side state: the set of image files on disk and the `images`
table rows. -/
structure ImgState where
  files : List String
  rows : List ImgRow
deriving DecidableEq

/-- The pending images produced by `serializeHistory`: the (id, mediaType)
pair of every image content of the history, in walk order, with `id` the hash
of the bytes. -/
def pendingImagesOf (hash : List Nat → String) (history : List Message) :
    List (String × String) :=
  (history.flatMap Message.contents).filterMap (fun c =>
    match c with
    | .image mt data => some (hash data, mt)
    | _ => none)

/-- `writeFileSync` guarded by `if (!existsSync(img.path))`. -/
def writeImageFile (files : List String) (path : String) : List String :=
  if path ∈ files then files else files ++ [path]

/-- `db.insert(images).values(...).onConflictDoNothing()`: the composite
primary key is `(id, sessionId)`, so a row with the same id and sessionId is
left untouched. -/
def insertRowNoConflict (rows : List ImgRow) (r : ImgRow) : List ImgRow :=
  if rows.any (fun q => q.id = r.id ∧ q.sessionId = r.sessionId) then rows
  else rows ++ [r]

/-- The image-file part of `_flushSession`: write each pending image file if
absent and upsert its reference row. -/
def flushImages (hash : List Nat → String) (st : ImgState)
    (agentSlug sessionId : String) (history : List Message) : ImgState :=
  (pendingImagesOf hash history).foldl
    (fun acc idmt =>
      { files := writeImageFile acc.files (imagePath agentSlug idmt.1 idmt.2)
        rows := insertRowNoConflict acc.rows ⟨agentSlug, idmt.1, idmt.2, sessionId⟩ })
    st

/-- The rows referenced by the session being deleted. -/
def referencedRows (st : ImgState) (sessionId : String) : List ImgRow :=
  st.rows.filter (fun r => r.sessionId = sessionId)

/-- The ids still referenced by other sessions — their files are kept
(`notInArray(images.sessionId, [sessionId])` and `inArray(images.id, ids)`). -/
def stillSharedIds (st : ImgState) (sessionId : String) : List String :=
  (st.rows.filter (fun r => r.sessionId ≠ sessionId ∧
      r.id ∈ (referencedRows st sessionId).map (fun q => q.id))).map (fun r => r.id)

/-- The referenced rows whose files get unlinked. -/
def toUnlinkRows (st : ImgState) (sessionId : String) : List ImgRow :=
  (referencedRows st sessionId).filter (fun r => r.id ∉ stillSharedIds st sessionId)

/-- `deleteSession`: unlink the files of the not-still-shared referenced
images, then delete the session's reference rows. -/
def deleteSessionImages (st : ImgState) (sessionId : String) : ImgState :=
  { files := st.files.filter (fun p =>
      !(toUnlinkRows st sessionId).any
        (fun r => imagePath r.agentSlug r.id r.mediaType == p))
    rows := st.rows.filter (fun r => r.sessionId ≠ sessionId) }

theorem mem_referencedRows (st : ImgState) (sid : String) (r : ImgRow) :
    r ∈ referencedRows st sid ↔ r ∈ st.rows ∧ r.sessionId = sid := by
  simp [referencedRows, List.mem_filter]

theorem mem_stillSharedIds (st : ImgState) (sid : String) (x : String) :
    x ∈ stillSharedIds st sid ↔
      ∃ q ∈ st.rows, q.sessionId ≠ sid ∧
        q.id ∈ (referencedRows st sid).map (fun q => q.id) ∧ q.id = x := by
  simp only [stillSharedIds, List.mem_map, List.mem_filter]
  constructor
  · rintro ⟨q, ⟨hq, hcond⟩, hx⟩
    simp only [decide_eq_true_eq, Bool.and_eq_true, decide_not, Bool.not_eq_true,
      decide_eq_false_iff_not] at hcond
    exact ⟨q, hq, hcond.1, hcond.2, hx⟩
  · rintro ⟨q, hq, hne, hid, hx⟩
    refine ⟨q, ⟨hq, ?_⟩, hx⟩
    simp only [decide_eq_true_eq, Bool.and_eq_true, decide_not, Bool.not_eq_true,
      decide_eq_false_iff_not]
    exact ⟨hne, hid⟩

theorem mem_toUnlinkRows (st : ImgState) (sid : String) (r : ImgRow) :
    r ∈ toUnlinkRows st sid ↔
      r ∈ st.rows ∧ r.sessionId = sid ∧
        ¬ ∃ q ∈ st.rows, q.id = r.id ∧ q.sessionId ≠ sid := by
  simp only [toUnlinkRows, List.mem_filter, mem_referencedRows, decide_not,
    Bool.not_eq_true', decide_eq_false_iff_not]
  constructor
  · rintro ⟨⟨hr, hsid⟩, hshare⟩
    refine ⟨hr, hsid, ?_⟩
    rintro ⟨q, hq, hqid, hqsid⟩
    refine hshare ((mem_stillSharedIds st sid r.id).mpr ⟨q, hq, hqsid, ?_, hqid⟩)
    rw [hqid]
    exact List.mem_map.mpr ⟨r, (mem_referencedRows st sid r).mpr ⟨hr, hsid⟩, rfl⟩
  · rintro ⟨hr, hsid, hno⟩
    refine ⟨⟨hr, hsid⟩, ?_⟩
    intro habs
    obtain ⟨q, hq, hqsid, _, hqid⟩ := (mem_stillSharedIds st sid r.id).mp habs
    exact hno ⟨q, hq, hqid, hqsid⟩

theorem mem_deleteSessionImages_files (st : ImgState) (sid : String) (p : String) :
    p ∈ (deleteSessionImages st sid).files ↔
      p ∈ st.files ∧
        ¬ ∃ r ∈ st.rows, r.sessionId = sid ∧
          imagePath r.agentSlug r.id r.mediaType = p ∧
          ¬ ∃ q ∈ st.rows, q.id = r.id ∧ q.sessionId ≠ sid := by
  simp only [deleteSessionImages, List.mem_filter, Bool.not_eq_true',
    List.any_eq_false, beq_eq_false_iff_ne, ne_eq]
  constructor
  · rintro ⟨hp, hno⟩
    refine ⟨hp, ?_⟩
    rintro ⟨r, hr, hsid, hpath, hnoshare⟩
    exact (hno r ((mem_toUnlinkRows st sid r).mpr ⟨hr, hsid, hnoshare⟩))
      (beq_iff_eq.mpr hpath)
  · rintro ⟨hp, hno⟩
    refine ⟨hp, ?_⟩
    intro r hrun hpath
    obtain ⟨hr, hsid, hnoshare⟩ := (mem_toUnlinkRows st sid r).mp hrun
    exact hno ⟨r, hr, hsid, beq_iff_eq.mp hpath, hnoshare⟩

theorem flushImages_files_nodup (hash : List Nat → String) (st : ImgState)
    (agentSlug sessionId : String) (history : List Message)
    (h : st.files.Nodup) :
    (flushImages hash st agentSlug sessionId history).files.Nodup := by
  unfold flushImages
  generalize pendingImagesOf hash history = imgs
  induction imgs generalizing st with
  | nil => exact h
  | cons p rest ih =>
    rw [List.foldl_cons]
    apply ih
    simp only [writeImageFile]
    split
    · exact h
    · next hnotin =>
      refine List.Nodup.append h (by simp) ?_
      intro a ha hb
      simp only [List.mem_singleton] at hb
      subst hb
      exact hnotin ha

theorem flushImages_files_mem (hash : List Nat → String) (st : ImgState)
    (agentSlug sessionId : String) (history : List Message)
    (mt : String) (b : List Nat)
    (h : Content.image mt b ∈ history.flatMap Message.contents) :
    imagePath agentSlug (hash b) mt ∈
      (flushImages hash st agentSlug sessionId history).files := by
  unfold flushImages
  have hmem : (hash b, mt) ∈ pendingImagesOf hash history := by
    unfold pendingImagesOf
    exact List.mem_filterMap.mpr ⟨Content.image mt b, h, rfl⟩
  generalize hgen : pendingImagesOf hash history = imgs at hmem
  clear hgen h
  induction imgs generalizing st with
  | nil => simp at hmem
  | cons p rest ih =>
    rw [List.foldl_cons]
    rcases List.mem_cons.mp hmem with heq | hmem2
    · subst heq
      have hpres : ∀ (r : List (String × String)) (st1 : ImgState),
          imagePath agentSlug (hash b) mt ∈ st1.files →
          imagePath agentSlug (hash b) mt ∈
            (r.foldl (fun acc idmt =>
              ({ files := writeImageFile acc.files (imagePath agentSlug idmt.1 idmt.2)
                 rows := insertRowNoConflict acc.rows
                   ⟨agentSlug, idmt.1, idmt.2, sessionId⟩ } : ImgState)) st1).files := by
        intro r
        induction r with
        | nil => intro st1 hin; exact hin
        | cons q qrest ihq =>
          intro st1 hin
          rw [List.foldl_cons]
          apply ihq
          simp only [writeImageFile]
          split
          · exact hin
          · simp [hin]
      apply hpres
      simp only [writeImageFile]
      split
      · assumption
      · simp
    · exact ih _ hmem2

theorem flushImages_count_one (hash : List Nat → String) (st : ImgState)
    (agentSlug sessionId : String) (history : List Message)
    (mt : String) (b : List Nat)
    (hnd : st.files.Nodup)
    (h : Content.image mt b ∈ history.flatMap Message.contents) :
    (flushImages hash st agentSlug sessionId history).files.count
      (imagePath agentSlug (hash b) mt) = 1 := by
  have h1 := flushImages_files_nodup hash st agentSlug sessionId history hnd
  have h2 := flushImages_files_mem hash st agentSlug sessionId history mt b h
  exact List.count_eq_one_of_mem h1 h2

/-- Claim C7: (a) flushing any number of sessions whose histories contain the
same image content leaves exactly one file on disk for that hash — each flush
writes only when the file is absent, and the file set stays duplicate-free;
(b) the reference rows never gain a duplicate `(id, sessionId)` pair; and
(c) `deleteSession` unlinks exactly those files of images referenced by the
deleted session whose id has no remaining row with a different sessionId, and
no other file. -/
theorem c7_image_dedup_and_gc (hash : List Nat → String) (st0 : ImgState)
    (agentSlug : String) (mt : String) (b : List Nat)
    (flushes : List (String × List Message))
    (hnd : st0.files.Nodup)
    (hall : ∀ f ∈ flushes, Content.image mt b ∈ f.2.flatMap Message.contents)
    (hne : flushes ≠ []) :
    ((flushes.foldl (fun acc f => flushImages hash acc agentSlug f.1 f.2) st0).files.count
        (imagePath agentSlug (hash b) mt) = 1 ∧
      (flushes.foldl (fun acc f => flushImages hash acc agentSlug f.1 f.2) st0).files.Nodup) ∧
      (∀ st : ImgState, ∀ sid hist,
        (st.rows.map (fun r => (r.id, r.sessionId))).Nodup →
          ((flushImages hash st agentSlug sid hist).rows.map
            (fun r => (r.id, r.sessionId))).Nodup) ∧
      (∀ st : ImgState, ∀ sid : String, ∀ p : String,
        (p ∈ (deleteSessionImages st sid).files ↔
          p ∈ st.files ∧
            ¬ ∃ r ∈ st.rows, r.sessionId = sid ∧
              imagePath r.agentSlug r.id r.mediaType = p ∧
              ¬ ∃ q ∈ st.rows, q.id = r.id ∧ q.sessionId ≠ sid)) := by
  refine ⟨?_, ?_, ?_⟩
  · have main : ∀ (fl : List (String × List Message)) (st : ImgState), st.files.Nodup →
        (∀ f ∈ fl, Content.image mt b ∈ f.2.flatMap Message.contents) →
        (imagePath agentSlug (hash b) mt ∈ st.files ∨ fl ≠ []) →
        ((fl.foldl (fun acc f => flushImages hash acc agentSlug f.1 f.2) st).files.count
          (imagePath agentSlug (hash b) mt) = 1 ∧
        (fl.foldl (fun acc f => flushImages hash acc agentSlug f.1 f.2) st).files.Nodup) := by
      intro fl
      induction fl with
      | nil =>
        intro st hn ha hcase
        rcases hcase with hin | hne2
        · exact ⟨List.count_eq_one_of_mem hn hin, hn⟩
        · exact absurd rfl hne2
      | cons f rest ih =>
        intro st hn ha _
        rw [List.foldl_cons]
        by_cases hr : rest = []
        · subst hr
          simp only [List.foldl_nil]
          exact ⟨flushImages_count_one hash st agentSlug f.1 f.2 mt b hn
              (ha f (by simp)),
            flushImages_files_nodup hash st agentSlug f.1 f.2 hn⟩
        · exact ih _ (flushImages_files_nodup hash st agentSlug f.1 f.2 hn)
            (fun g hg => ha g (by simp [hg]))
            (Or.inl (flushImages_files_mem hash st agentSlug f.1 f.2 mt b (ha f (by simp))))
    exact main flushes st0 hnd hall (Or.inr hne)
  · intro st sid hist hnd2
    unfold flushImages
    generalize pendingImagesOf hash hist = imgs
    induction imgs generalizing st with
    | nil => exact hnd2
    | cons p rest ih =>
      rw [List.foldl_cons]
      apply ih
      simp only [insertRowNoConflict]
      split
      · exact hnd2
      · next hnone =>
        simp only [List.map_append, List.nodup_append, List.map_cons, List.map_nil,
          List.nodup_cons]
        refine ⟨hnd2, by simp, ?_⟩
        simp only [Bool.not_eq_true, List.any_eq_false, decide_eq_true_eq] at hnone
        intro a ha hmem
        simp only [List.not_mem_nil, List.mem_singleton, List.nodup_nil] at hmem ⊢
        subst hmem
        obtain ⟨q, hq, hqeq⟩ := List.mem_map.mp ha
        exact hnone q hq ⟨congrArg Prod.fst hqeq, congrArg Prod.snd hqeq⟩
  · intro st sid p
    exact mem_deleteSessionImages_files st sid p

/-- An arbitrary concrete stand-in for the BLAKE3 hash in the C7 witness. -/
def demoHash : List Nat → String := fun _ => "cafe"

/-- A history holding one image content, for the C7 witness. -/
def demoImgHistory : List Message :=
  [Message.user (.one (.image "image/png" [1, 2])) none none]

/-- Two sessions flushing the same image bytes, for the C7 witness. -/
def demoFlushes : List (String × List Message) :=
  [("discord:1", demoImgHistory), ("discord:2", demoImgHistory)]

/-- Witness for `c7_image_dedup_and_gc` at a concrete input: two sessions
flush the same image; exactly one file for its hash exists afterwards. -/
theorem c7_image_dedup_and_gc_witness :
    (demoFlushes.foldl (fun acc f => flushImages demoHash acc "agent" f.1 f.2)
        ⟨[], []⟩).files.count (imagePath "agent" (demoHash [1, 2]) "image/png") = 1 ∧
      (demoFlushes.foldl (fun acc f => flushImages demoHash acc "agent" f.1 f.2)
        ⟨[], []⟩).files.Nodup :=
  (c7_image_dedup_and_gc demoHash ⟨[], []⟩ "agent" "image/png" [1, 2] demoFlushes
    (by decide) (by decide) (by decide)).1

/-! ## The `exec` tool (src/engine/tools/exec.ts) and the sandbox executor
entry (src/util/sandbox.ts lines 414-447)

The tool validates its input against a strict schema (non-empty command with
no shell metacharacter, non-empty args), checks the `[exec]` tool config, and
checks the binary allowlist, returning structured `{success:false}` outputs on
every failure; only then does it call `exec` in src/util/sandbox.ts, which
re-checks the metacharacters and the allowlist, builds the bubblewrap sandbox
and spawns the child.  `ExecStage` records how far the pipeline got. -/

/-- The characters of `SHELL_METACHAR_PATTERN = /[\s"'|&;$`\\]/` (the ASCII
whitespace class plus the listed metacharacters). -/
def SHELL_METACHARS : List Char := " \t\n\r\x0b\x0c".data ++ "\"'|&;$`\\".data

/-- Does the command contain whitespace or a shell metacharacter? -/
def hasShellMeta (s : String) : Bool :=
  s.data.any (fun c => SHELL_METACHARS.contains c)

/-- The `[exec]` section of tools.toml as seen by the tool: `exec = false`,
an invalid value (no `binaries` list), or a config object. -/
structure ExecToolConfig where
  enabled : Bool
  binaries : List String
  timeout : Nat
deriving DecidableEq

/-- The tool-config value for `exec` (`toolsConfig["exec"]`). -/
inductive ExecSetting where
  | disabled
  | invalid
  | cfg (c : ExecToolConfig)
deriving DecidableEq

/-- How far the exec pipeline got: every `rejected*` constructor is a
structured error returned before `buildBwrap` runs; `buildFailed` means the
sandbox could not be built (still no child process); `spawned` means the child
was actually run. -/
inductive ExecStage where
  | rejectedInput
  | rejectedDisabled
  | rejectedInvalidConfig
  | rejectedAllowlist
  | buildFailed
  | spawned
deriving DecidableEq

/-- The valibot schema of the exec tool: `command` non-empty without shell
metacharacters, `args` a list of non-empty strings. -/
def validExecInput (command : String) (args : List String) : Bool :=
  command ≠ "" && !hasShellMeta command && args.all (fun a => a ≠ "")

/-- The exact allowlist-miss error message from src/engine/tools/exec.ts. -/
def allowlistMissError (command : String) : String :=
  "Command '" ++ command ++ "' is not in the allowed binaries list."

/-- The allowlist-miss output object `{error, hint, success:false}`. -/
def allowlistMissOutput (command : String) : JsObj :=
  [("error", .str (allowlistMissError command)),
    ("hint", .str ("Use `bash -c 'command'` if you think the binary is in " ++
      "your $PATH (e.g., from .env).")),
    ("success", .bool false)]

/-- `exec` from src/util/sandbox.ts: re-check metacharacters and allowlist,
build the bubblewrap sandbox (`bwrapOk` abstracts whether `buildBwrap`
succeeds), and only then run the child. -/
def sandboxExecStage (binaries : List String) (command : String) (bwrapOk : Bool) :
    ExecStage :=
  if hasShellMeta command then .rejectedInput
  else if !binaries.contains command then .rejectedAllowlist
  else if !bwrapOk then .buildFailed
  else .spawned

/-- The exec tool's `execute` (src/engine/tools/exec.ts lines 38-93): returns
the tool output object together with the pipeline stage reached.  The spawned
child's result is abstracted by `childExit`, `childOut`, `childErr`. -/
def execToolRun (setting : ExecSetting) (command : String) (args : List String)
    (bwrapOk : Bool) (childExit : Int) (childOut childErr : String) :
    JsObj × ExecStage :=
  if !validExecInput command args then
    ([("error", .str "invalid input"), ("issues", .null), ("success", .bool false)],
      .rejectedInput)
  else
    match setting with
    | .disabled =>
        ([("error", .str "Exec tool is disabled in configuration."),
          ("success", .bool false)], .rejectedDisabled)
    | .invalid =>
        ([("error", .str ("Exec tool configuration is invalid or missing. " ++
            "Configure [exec] with binaries list in tools.toml.")),
          ("success", .bool false)], .rejectedInvalidConfig)
    | .cfg c =>
        if !c.enabled then
          ([("error", .str "Exec tool is disabled in configuration."),
            ("success", .bool false)], .rejectedDisabled)
        else if !c.binaries.contains command then
          (allowlistMissOutput command, .rejectedAllowlist)
        else
          match sandboxExecStage c.binaries command bwrapOk with
          | .buildFailed =>
              ([("error", .str "Failed to build bubblewrap sandbox, cannot execute."),
                ("success", .bool false)], .buildFailed)
          | .spawned =>
              ([("exitCode", .num childExit), ("stderr", .str childErr),
                ("stdout", .str childOut),
                ("success", .bool (childExit == 0))], .spawned)
          | other =>
              -- unreachable through the tool (both checks already passed);
              -- kept to mirror the sandbox's own `error` returns
              ([("error", .str "sandbox rejected"), ("success", .bool false)], other)

/-- Claim C8: a command containing whitespace or a shell metacharacter, or one
missing from the allowlist, yields a structured `{success:false}` output and
never reaches the sandbox spawn; an allowlist miss on an otherwise valid,
enabled invocation yields exactly
`{success:false, error:"Command '<name>' is not in the allowed binaries
list."}`; and the sandbox is built and the child run only when the command is
clean and allowlisted. -/
theorem c8_exec_preconditions (setting : ExecSetting) (command : String)
    (args : List String) (bwrapOk : Bool) (childExit : Int)
    (childOut childErr : String) :
    (hasShellMeta command = true →
        (execToolRun setting command args bwrapOk childExit childOut childErr).2 ≠
            .spawned ∧
          (execToolRun setting command args bwrapOk childExit childOut childErr).1.get
              "success" = .bool false) ∧
      (∀ c : ExecToolConfig, setting = .cfg c → c.binaries.contains command = false →
        (execToolRun setting command args bwrapOk childExit childOut childErr).2 ≠
            .spawned ∧
          (execToolRun setting command args bwrapOk childExit childOut childErr).1.get
              "success" = .bool false) ∧
      (∀ c : ExecToolConfig, setting = .cfg c → c.enabled = true →
        validExecInput command args = true → c.binaries.contains command = false →
        (execToolRun setting command args bwrapOk childExit childOut childErr).1 =
            allowlistMissOutput command ∧
          (execToolRun setting command args bwrapOk childExit childOut childErr).2 =
            .rejectedAllowlist) ∧
      ((execToolRun setting command args bwrapOk childExit childOut childErr).2 =
            .spawned ∨
          (execToolRun setting command args bwrapOk childExit childOut childErr).2 =
            .buildFailed →
        hasShellMeta command = false ∧
          ∃ c : ExecToolConfig, setting = .cfg c ∧ c.binaries.contains command = true) := by
  refine ⟨?_, ?_, ?_, ?_⟩
  · intro hmeta
    have hval : validExecInput command args = false := by
      simp [validExecInput, hmeta]
    have hres : execToolRun setting command args bwrapOk childExit childOut childErr =
        ([("error", .str "invalid input"), ("issues", .null), ("success", .bool false)],
          .rejectedInput) := by
      simp [execToolRun, hval]
    rw [hres]
    exact ⟨by simp, rfl⟩
  · intro c hc hmiss
    subst hc
    have hmiss2 : command ∉ c.binaries := by simpa using hmiss
    by_cases hval : validExecInput command args = true
    · by_cases hen : c.enabled = true
      · have hres : execToolRun (.cfg c) command args bwrapOk childExit childOut childErr =
            (allowlistMissOutput command, .rejectedAllowlist) := by
          simp [execToolRun, hval, hen, hmiss2]
        rw [hres]
        exact ⟨by simp, rfl⟩
      · simp only [Bool.not_eq_true] at hen
        have hres : execToolRun (.cfg c) command args bwrapOk childExit childOut childErr =
            ([("error", .str "Exec tool is disabled in configuration."),
              ("success", .bool false)], .rejectedDisabled) := by
          simp [execToolRun, hval, hen]
        rw [hres]
        exact ⟨by simp, rfl⟩
    · simp only [Bool.not_eq_true] at hval
      have hres : execToolRun (.cfg c) command args bwrapOk childExit childOut childErr =
          ([("error", .str "invalid input"), ("issues", .null), ("success", .bool false)],
            .rejectedInput) := by
        simp [execToolRun, hval]
      rw [hres]
      exact ⟨by simp, rfl⟩
  · intro c hc hen hval hmiss
    subst hc
    have hmiss2 : command ∉ c.binaries := by simpa using hmiss
    have hres : execToolRun (.cfg c) command args bwrapOk childExit childOut childErr =
        (allowlistMissOutput command, .rejectedAllowlist) := by
      simp [execToolRun, hval, hen, hmiss2]
    rw [hres]
    exact ⟨rfl, rfl⟩
  · intro hstage
    by_cases hval : validExecInput command args = true
    · cases setting with
      | disabled =>
        have hres : execToolRun .disabled command args bwrapOk childExit childOut childErr =
            ([("error", .str "Exec tool is disabled in configuration."),
              ("success", .bool false)], .rejectedDisabled) := by
          simp [execToolRun, hval]
        rw [hres] at hstage
        simp at hstage
      | invalid =>
        have hres : execToolRun .invalid command args bwrapOk childExit childOut childErr =
            ([("error", .str ("Exec tool configuration is invalid or missing. " ++
                "Configure [exec] with binaries list in tools.toml.")),
              ("success", .bool false)], .rejectedInvalidConfig) := by
          simp [execToolRun, hval]
        rw [hres] at hstage
        simp at hstage
      | cfg c =>
        by_cases hen : c.enabled = true
        · by_cases hmem : command ∈ c.binaries
          · have hmeta : hasShellMeta command = false := by
              have hv : (command ≠ "" && !hasShellMeta command &&
                  args.all (fun a => a ≠ "")) = true := hval
              simp only [Bool.and_eq_true] at hv
              simpa using hv.1.2
            exact ⟨hmeta, c, rfl, by simpa using hmem⟩
          · have hres : execToolRun (.cfg c) command args bwrapOk childExit childOut childErr =
                (allowlistMissOutput command, .rejectedAllowlist) := by
              simp [execToolRun, hval, hen, hmem]
            rw [hres] at hstage
            simp at hstage
        · simp only [Bool.not_eq_true] at hen
          have hres : execToolRun (.cfg c) command args bwrapOk childExit childOut childErr =
              ([("error", .str "Exec tool is disabled in configuration."),
                ("success", .bool false)], .rejectedDisabled) := by
            simp [execToolRun, hval, hen]
          rw [hres] at hstage
          simp at hstage
    · simp only [Bool.not_eq_true] at hval
      have hres : execToolRun setting command args bwrapOk childExit childOut childErr =
          ([("error", .str "invalid input"), ("issues", .null), ("success", .bool false)],
            .rejectedInput) := by
        simp [execToolRun, hval]
      rw [hres] at hstage
      simp at hstage

/-- Witness for `c8_exec_preconditions`, matching the spec's own scenario:
`exec{command:"nmap"}` against allowlist `["ls"]` returns the structured
allowlist-miss error and never spawns. -/
theorem c8_exec_preconditions_witness :
    ((⟨true, ["ls"], 10000⟩ : ExecToolConfig).enabled = true ∧
        validExecInput "nmap" [] = true ∧
        (⟨true, ["ls"], 10000⟩ : ExecToolConfig).binaries.contains "nmap" = false) ∧
      ((execToolRun (.cfg ⟨true, ["ls"], 10000⟩) "nmap" [] true 0 "" "").1 =
          allowlistMissOutput "nmap" ∧
        (execToolRun (.cfg ⟨true, ["ls"], 10000⟩) "nmap" [] true 0 "" "").2 =
          .rejectedAllowlist) :=
  ⟨by decide,
    (c8_exec_preconditions (.cfg ⟨true, ["ls"], 10000⟩) "nmap" [] true 0 "" "").2.2.1
      ⟨true, ["ls"], 10000⟩ rfl (by decide) (by decide) (by decide)⟩

/-! ## Path resolver (src/util/paths.ts, `sandboxToReal`, lines 59-122)

Absolute filesystem paths are modelled as lists of path segments (no segment
contains a `/`).  `node:path` functions translate as follows: `join` +
`normalize` become segment concatenation followed by `resolveDots` (for an
absolute path, `.` is dropped and `..` pops, staying at the root); `relative`
of two absolute paths becomes `relSegs` (strip the common prefix, prepend one
`..` per remaining base segment) — on POSIX it never returns an absolute path,
so the source's `isAbsolute(realRelative)` branch is constantly false;
`basename`/`dirname` become `getLast`/`dropLast`.  The filesystem is abstract:
`pathExists` models `existsSync` and `realpath` models `realpathSync` (total,
i.e. `realpathSync` succeeds on existing paths, and the agent root exists).
String prefix tests and slicing are written over the character list so that
every definition evaluates by kernel reduction. -/

/-- JavaScript `s.startsWith(pre)`. -/
def strStartsWith (s pre : String) : Bool :=
  s.data.take pre.data.length = pre.data

/-- JavaScript `s.slice(n)` for a non-negative character index. -/
def strDrop (s : String) (n : Nat) : String :=
  ⟨s.data.drop n⟩

/-- JavaScript `s.split(sep)` for a one-character separator, over the
character list. -/
def splitOnChar (sep : Char) : List Char → List (List Char)
  | [] => [[]]
  | c :: rest =>
      match splitOnChar sep rest with
      | [] => if c = sep then [[], []] else [[c]]
      | g :: gs => if c = sep then [] :: g :: gs else (c :: g) :: gs

/-- The filesystem as seen by `sandboxToReal`. -/
structure FS where
  pathExists : List String → Bool
  realpath : List String → List String

/-- The segments of the user-supplied tail: split on `/`, dropping empty
segments and `.` (both removed by `join`/`normalize`). -/
def rawSegs (s : String) : List String :=
  ((splitOnChar '/' s.data).map (fun cs => String.mk cs)).filter
    (fun seg => seg ≠ "" && seg ≠ ".")

/-- Lexical normalization of an absolute path's segments: `..` pops the last
segment (and is dropped at the root), anything else is appended. -/
def resolveDots (segs : List String) : List String :=
  segs.foldl (fun acc seg => if seg = ".." then acc.dropLast else acc ++ [seg]) []

/-- Strip the common prefix of two segment lists. -/
def dropCommon : List String → List String → List String × List String
  | a :: as, b :: bs => if a = b then dropCommon as bs else (a :: as, b :: bs)
  | as, bs => (as, bs)

/-- `path.relative` on two absolute paths: one `..` per base segment left
after stripping the common prefix, then the target's remainder. -/
def relSegs (fromP toP : List String) : List String :=
  List.replicate (dropCommon fromP toP).1.length ".." ++ (dropCommon fromP toP).2

/-- The string test `relativePath.startsWith("..")` on the joined path: true
iff the first segment starts with `..`. -/
def startsWithDotDot : List String → Bool
  | [] => false
  | seg :: _ => strStartsWith seg ".."

/-- The string test `relativePath.startsWith(sub ++ "/") || relativePath ===
sub` on the joined path.  Since no segment contains a `/` and the four
expected subdirectory names contain none either, both disjuncts reduce to
"the first segment equals `sub`". -/
def underSubdir (rel : List String) (sub : String) : Bool :=
  match rel with
  | [] => false
  | seg :: _ => seg = sub

/-- The prefix dispatch at the top of `sandboxToReal`: the accepted roots, in
source order, with the expected subdirectory and the tail after the prefix. -/
def matchRoot (p : String) : Option (String × String) :=
  if strStartsWith p "/blocks/" then some ("blocks", strDrop p "/blocks/".data.length)
  else if strStartsWith p "/memories/" then
    some ("memories", strDrop p "/memories/".data.length)
  else if strStartsWith p "/skills/" then
    some ("skills", strDrop p "/skills/".data.length)
  else if strStartsWith p "/workspace/" then
    some ("workspace", strDrop p "/workspace/".data.length)
  else none

/-- The access-denied failures of `sandboxToReal`, one per `throw` site (every
message in the source starts with `Access denied:`). -/
inductive PathError where
  | outsideSandbox
  | escapesSandbox
  | escapedArea
  | noResolvableAncestor
  | symlinkOutside
  | symlinkEscapedArea
deriving DecidableEq

instance {ε α : Type} [DecidableEq ε] [DecidableEq α] : DecidableEq (Except ε α) :=
  fun x y =>
    match x, y with
    | .ok a, .ok b => if h : a = b then isTrue (by rw [h]) else isFalse (by simp [h])
    | .error a, .error b => if h : a = b then isTrue (by rw [h]) else isFalse (by simp [h])
    | .ok _, .error _ => isFalse (by simp)
    | .error _, .ok _ => isFalse (by simp)

/-- The `while (!existsSync(current))` loop of `sandboxToReal`, on the
reversed segment list so that `dirname` (= `dropLast`) is structural: walk
upward collecting basenames until an existing ancestor is found; reaching the
root (`dirname(current) === current`) without finding one throws. -/
def walkUpRev (fs : FS) : List String → List String → Option (List String × List String)
  | rcur, acc =>
    if fs.pathExists rcur.reverse then some (rcur.reverse, acc)
    else
      match rcur with
      | [] => none
      | c :: cs => walkUpRev fs cs (c :: acc)

/-- The ancestor walk on a path in segment order. -/
def walkUp (fs : FS) (current acc : List String) : Option (List String × List String) :=
  walkUpRev fs current.reverse acc

/-- The lexically normalized real path `join(origin, sub, tail)` of an
accepted input. -/
def normalizedFor (origin : List String) (sub tail : String) : List String :=
  resolveDots (origin ++ sub :: rawSegs tail)

/-- The canonical-form checks after the ancestor walk: reject when the
symlink-resolved path escapes the canonical agent root or the expected
subdirectory, else return it. -/
def resolveSymChecked (fs : FS) (origin : List String) (sub : String)
    (existing segs : List String) : Except PathError (List String) :=
  if startsWithDotDot (relSegs (fs.realpath origin) (fs.realpath existing ++ segs)) then
    .error .symlinkOutside
  else if !underSubdir (relSegs (fs.realpath origin) (fs.realpath existing ++ segs)) sub then
    .error .symlinkEscapedArea
  else .ok (fs.realpath existing ++ segs)

/-- The body of `sandboxToReal` after the prefix dispatch: lexical escape
checks, ancestor walk, then the canonical checks. -/
def resolveChecked (fs : FS) (origin : List String) (sub tail : String) :
    Except PathError (List String) :=
  if startsWithDotDot (relSegs origin (normalizedFor origin sub tail)) then
    .error .escapesSandbox
  else if !underSubdir (relSegs origin (normalizedFor origin sub tail)) sub then
    .error .escapedArea
  else
    match walkUp fs (normalizedFor origin sub tail) [] with
    | none => .error .noResolvableAncestor
    | some (existing, segs) => resolveSymChecked fs origin sub existing segs

/-- `sandboxToReal` from src/util/paths.ts: prefix dispatch, lexical
normalization and escape checks, symlink resolution of the existing ancestor,
and the canonical escape checks against the canonical agent root. -/
def sandboxToReal (fs : FS) (origin : List String) (p : String) :
    Except PathError (List String) :=
  match matchRoot p with
  | none => .error .outsideSandbox
  | some (sub, tail) => resolveChecked fs origin sub tail

theorem dropCommon_nil_left (a b : List String) (t : List String)
    (h : dropCommon a b = ([], t)) : b = a ++ t := by
  induction a generalizing b with
  | nil =>
    cases b with
    | nil => simp [dropCommon] at h; simp [h]
    | cons y bs => simp [dropCommon] at h; simp [h]
  | cons x as ih =>
    cases b with
    | nil => simp [dropCommon] at h
    | cons y bs =>
      by_cases hxy : x = y
      · subst hxy
        simp only [dropCommon, if_pos rfl] at h
        simpa using ih bs h
      · simp [dropCommon, hxy] at h

theorem relSegs_no_dotdot (a b : List String)
    (h : startsWithDotDot (relSegs a b) = false) :
    ∃ t, b = a ++ t ∧ relSegs a b = t := by
  rcases hdc : dropCommon a b with ⟨f, t⟩
  have hr : relSegs a b = List.replicate f.length ".." ++ t := by
    rw [relSegs, hdc]
  cases f with
  | nil =>
    refine ⟨t, dropCommon_nil_left a b t hdc, ?_⟩
    simpa using hr
  | cons x xs =>
    exfalso
    rw [hr, List.length_cons, List.replicate_succ, List.cons_append] at h
    have htrue : startsWithDotDot (".." :: (List.replicate xs.length ".." ++ t)) = true := by
      rfl
    rw [htrue] at h
    exact Bool.true_eq_false.mp h

/-- Full inversion of a successful resolution: the prefix matched, the walk
found an existing ancestor, and both canonical escape checks passed. -/
theorem sandboxToReal_ok_inv (fs : FS) (origin : List String) (p : String)
    (r : List String) (hok : sandboxToReal fs origin p = .ok r) :
    ∃ sub tail existing segs,
      matchRoot p = some (sub, tail) ∧
        walkUp fs (normalizedFor origin sub tail) [] = some (existing, segs) ∧
        r = fs.realpath existing ++ segs ∧
        startsWithDotDot (relSegs (fs.realpath origin) r) = false ∧
        underSubdir (relSegs (fs.realpath origin) r) sub = true := by
  unfold sandboxToReal at hok
  rcases hmatch : matchRoot p with _ | ⟨sub, tail⟩ <;> rw [hmatch] at hok
  · replace hok : (Except.error .outsideSandbox : Except PathError (List String)) =
        .ok r := hok
    simp at hok
  · replace hok : resolveChecked fs origin sub tail = .ok r := hok
    unfold resolveChecked at hok
    by_cases hdd : startsWithDotDot (relSegs origin (normalizedFor origin sub tail)) = true
    · rw [if_pos hdd] at hok
      simp at hok
    · rw [if_neg hdd] at hok
      by_cases hus : (!underSubdir (relSegs origin (normalizedFor origin sub tail)) sub) = true
      · rw [if_pos hus] at hok
        simp at hok
      · rw [if_neg hus] at hok
        rcases hwalk : walkUp fs (normalizedFor origin sub tail) [] with
          _ | ⟨existing, segs⟩ <;> rw [hwalk] at hok
        · replace hok : (Except.error .noResolvableAncestor :
              Except PathError (List String)) = .ok r := hok
          simp at hok
        · replace hok : resolveSymChecked fs origin sub existing segs = .ok r := hok
          unfold resolveSymChecked at hok
          by_cases hdd2 : startsWithDotDot
              (relSegs (fs.realpath origin) (fs.realpath existing ++ segs)) = true
          · rw [if_pos hdd2] at hok
            simp at hok
          · rw [if_neg hdd2] at hok
            by_cases hus2 : (!underSubdir
                (relSegs (fs.realpath origin) (fs.realpath existing ++ segs)) sub) = true
            · rw [if_pos hus2] at hok
              simp at hok
            · rw [if_neg hus2] at hok
              simp only [Except.ok.injEq] at hok
              subst hok
              refine ⟨sub, tail, existing, segs, rfl, hwalk, rfl, ?_, ?_⟩
              · simpa using hdd2
              · simpa using hus2

/-- Claim C2: (1) any input whose prefix is not one of the four virtual roots
fails with an access-denied error; (2) an input whose lexically normalized
form escapes the agent root (`relative` starts with `..`) fails; (3) whenever
the resolver returns a path, that path — symlinks on its existing ancestor
already resolved — lies under `{canonical agent root}/{root_sub}` for the
subdirectory named by the input's prefix; and (4) equivalently, the resolver
never returns a path whose canonical-relative form escapes the agent root or
the expected subdirectory, so every such escape fails with an access-denied
error. -/
theorem c2_sandbox_to_real (fs : FS) (origin : List String) (p : String) :
    (matchRoot p = none → sandboxToReal fs origin p = .error .outsideSandbox) ∧
      (∀ sub tail, matchRoot p = some (sub, tail) →
        startsWithDotDot (relSegs origin (normalizedFor origin sub tail)) = true →
        sandboxToReal fs origin p = .error .escapesSandbox) ∧
      (∀ r, sandboxToReal fs origin p = .ok r →
        ∃ sub tail rest, matchRoot p = some (sub, tail) ∧
          r = fs.realpath origin ++ sub :: rest) ∧
      (∀ sub tail r, matchRoot p = some (sub, tail) →
        sandboxToReal fs origin p = .ok r →
        startsWithDotDot (relSegs (fs.realpath origin) r) = false ∧
          underSubdir (relSegs (fs.realpath origin) r) sub = true) := by
  refine ⟨?_, ?_, ?_, ?_⟩
  · intro hnone
    unfold sandboxToReal
    rw [hnone]
  · intro sub tail hmatch hdd
    unfold sandboxToReal
    rw [hmatch]
    show resolveChecked fs origin sub tail = .error .escapesSandbox
    unfold resolveChecked
    rw [if_pos hdd]
  · intro r hok
    obtain ⟨sub, tail, existing, segs, hmatch, hwalk, hr, hdd2, hus2⟩ :=
      sandboxToReal_ok_inv fs origin p r hok
    obtain ⟨t, hbt, hrel⟩ := relSegs_no_dotdot (fs.realpath origin) r (by rw [hdd2])
    rw [hrel] at hus2
    cases t with
    | nil => simp [underSubdir] at hus2
    | cons s0 trest =>
      have hs0 : s0 = sub := by simpa [underSubdir] using hus2
      rw [hs0] at hbt
      exact ⟨sub, tail, trest, hmatch, hbt⟩
  · intro sub tail r hmatch hok
    obtain ⟨sub2, tail2, existing, segs, hmatch2, hwalk, hr, hdd2, hus2⟩ :=
      sandboxToReal_ok_inv fs origin p r hok
    rw [hmatch] at hmatch2
    obtain ⟨hsub, htail⟩ : sub2 = sub ∧ tail2 = tail := by
      have h2 := hmatch2.symm
      simp only [Option.some_inj, Prod.mk.injEq] at h2
      exact h2
    subst hsub
    exact ⟨hdd2, hus2⟩

/-- An everything-exists, no-symlink filesystem, for the C2 witness. -/
def demoFS : FS := ⟨fun _ => true, fun l => l⟩

/-- A concrete agent root for the C2 witness. -/
def demoOrigin : List String := ["home", "user", ".cireilclaw", "agents", "pix"]

/-- Witness for `c2_sandbox_to_real` at concrete inputs: a traversal input is
denied, an in-sandbox input resolves under the workspace subdirectory. -/
theorem c2_sandbox_to_real_witness :
    (matchRoot "/workspace/../../etc/passwd" = some ("workspace", "../../etc/passwd") ∧
        sandboxToReal demoFS demoOrigin "/workspace/../../etc/passwd" =
          .error .escapesSandbox) ∧
      (sandboxToReal demoFS demoOrigin "/workspace/notes/todo.md" =
          .ok (demoOrigin ++ ["workspace", "notes", "todo.md"]) ∧
        ∃ sub tail rest, matchRoot "/workspace/notes/todo.md" = some (sub, tail) ∧
          demoOrigin ++ ["workspace", "notes", "todo.md"] =
            demoFS.realpath demoOrigin ++ sub :: rest) := by
  refine ⟨⟨by decide, ?_⟩, ⟨by decide, ?_⟩⟩
  · exact (c2_sandbox_to_real demoFS demoOrigin "/workspace/../../etc/passwd").2.1
      "workspace" "../../etc/passwd" (by decide) (by decide)
  · exact (c2_sandbox_to_real demoFS demoOrigin "/workspace/notes/todo.md").2.2.1
      (demoOrigin ++ ["workspace", "notes", "todo.md"]) (by decide)

/-! ## Outbound message chunker (src/channels/discord.ts, `splitMessage`,
lines 169-222)

`splitMessage` splits a response on newline boundaries into chunks of at most
`CHUNK_LIMIT` characters, closing an open code fence with a trailing ``` line
before a split and reopening it (with the original fence opener) at the top of
the next chunk.  The loop state is embedded as `ChunkState` and one loop body
as `chunkStep`; the emitted chunks are the joined line groups.  JavaScript's
`split("\n")` / `join("\n")` are `splitOnChar` / `joinSep` over the character
list (string lengths count characters where JavaScript counts UTF-16 units —
identical on ASCII and BMP text). -/

/-- `CHUNK_LIMIT` from src/channels/discord.ts (200 below Discord's 2000). -/
def CHUNK_LIMIT : Nat := 1800

/-- `line.startsWith("```")` — the fence-delimiter test of the chunker. -/
def isFenceLine (line : String) : Bool := strStartsWith line "```"

/-- JavaScript `array.join(sep)` over character lists. -/
def joinSep (sep : Char) : List (List Char) → List Char
  | [] => []
  | [g] => g
  | g :: gs => g ++ sep :: joinSep sep gs

/-- `content.split("\n")` as a list of lines. -/
def splitLines (s : String) : List String :=
  (splitOnChar '\n' s.data).map (fun cs => ⟨cs⟩)

/-- `lines.join("\n")` as a string. -/
def joinLines (ls : List String) : String :=
  ⟨joinSep '\n' (ls.map String.data)⟩

/-- The mutable state of the `splitMessage` loop: emitted chunk groups, the
current chunk's lines, the tracked `currentLen`, and the open fence line. -/
structure ChunkState where
  result : List (List String)
  cur : List String
  curLen : Nat
  openFence : Option String

/-- One iteration of the `splitMessage` loop (src/channels/discord.ts lines
191-218): if appending the line (plus the close-fence headroom) would push the
chunk over the limit, close any open fence, emit, and reopen the fence in the
new chunk; then append the line and toggle the fence state on fence lines. -/
def chunkStep (st : ChunkState) (line : String) : ChunkState :=
  let isFence := isFenceLine line
  let addedLen := if st.cur.isEmpty then line.data.length else 1 + line.data.length
  let fenceCloseLen := if st.openFence.isNone then 0 else 4
  let st1 :=
    if CHUNK_LIMIT < st.curLen + addedLen + fenceCloseLen ∧ ¬st.cur.isEmpty then
      match st.openFence with
      | some f =>
          { result := st.result ++ [st.cur ++ ["```"]], cur := [f],
            curLen := f.data.length, openFence := some f }
      | none =>
          { result := st.result ++ [st.cur], cur := [], curLen := 0,
            openFence := none }
    else st
  { result := st1.result
    cur := st1.cur ++ [line]
    curLen := if st1.cur.isEmpty then line.data.length
      else st1.curLen + 1 + line.data.length
    openFence := if isFence then (if st1.openFence.isNone then some line else none)
      else st1.openFence }

/-- The chunk line groups produced by the `splitMessage` loop, including the
final `emit()` (which pushes only a non-empty chunk). -/
def chunkGroups (content : String) : List (List String) :=
  let final := (splitLines content).foldl chunkStep ⟨[], [], 0, none⟩
  final.result ++ (if final.cur.isEmpty then [] else [final.cur])

/-- `splitMessage` from src/channels/discord.ts: short content is returned
whole; longer content is split into joined line groups. -/
def splitMessage (content : String) : List String :=
  if content.data.length ≤ CHUNK_LIMIT then [content]
  else (chunkGroups content).map joinLines

theorem splitOnChar_ne_nil (sep : Char) (cs : List Char) : splitOnChar sep cs ≠ [] := by
  cases cs with
  | nil => simp [splitOnChar]
  | cons c rest =>
    unfold splitOnChar
    rcases h : splitOnChar sep rest with _ | ⟨g, gs⟩ <;> by_cases hc : c = sep <;>
      simp [hc]

theorem splitOnChar_cons (sep c : Char) (rest : List Char) :
    splitOnChar sep (c :: rest) =
      match splitOnChar sep rest with
      | [] => if c = sep then [[], []] else [[c]]
      | g :: gs => if c = sep then [] :: g :: gs else (c :: g) :: gs := rfl

theorem splitOnChar_sep_cons (sep : Char) (tail0 : List Char) :
    splitOnChar sep (sep :: tail0) = [] :: splitOnChar sep tail0 := by
  rw [splitOnChar_cons]
  rcases h : splitOnChar sep tail0 with _ | ⟨g, gs⟩
  · exact absurd h (splitOnChar_ne_nil sep tail0)
  · simp

theorem splitOnChar_cons_ne (sep c : Char) (hc : c ≠ sep) (tail0 : List Char) :
    splitOnChar sep (c :: tail0) =
      match splitOnChar sep tail0 with
      | [] => [[c]]
      | g :: gs => (c :: g) :: gs := by
  rw [splitOnChar_cons]
  rcases h : splitOnChar sep tail0 with _ | ⟨g, gs⟩ <;> simp [hc]

theorem splitOnChar_no_sep (sep : Char) : ∀ g : List Char, sep ∉ g →
    splitOnChar sep g = [g] := by
  intro g
  induction g with
  | nil => intro _; rfl
  | cons c cs ih =>
    intro hg
    have hc : c ≠ sep := fun h => hg (by simp [h])
    have hcs : sep ∉ cs := fun h => hg (by simp [h])
    rw [splitOnChar_cons_ne sep c hc, ih hcs]

theorem splitOnChar_append_sep (sep : Char) (tail0 : List Char) :
    ∀ g : List Char, sep ∉ g →
    splitOnChar sep (g ++ sep :: tail0) = g :: splitOnChar sep tail0 := by
  intro g
  induction g with
  | nil =>
    intro _
    simpa using splitOnChar_sep_cons sep tail0
  | cons c cs ih =>
    intro hg
    have hc : c ≠ sep := fun h => hg (by simp [h])
    have hcs : sep ∉ cs := fun h => hg (by simp [h])
    rw [List.cons_append, splitOnChar_cons_ne sep c hc, ih hcs]

theorem joinSep_splitOnChar (sep : Char) (cs : List Char) :
    joinSep sep (splitOnChar sep cs) = cs := by
  induction cs with
  | nil => rfl
  | cons c rest ih =>
    unfold splitOnChar
    rcases h : splitOnChar sep rest with _ | ⟨g, gs⟩
    · exact absurd h (splitOnChar_ne_nil sep rest)
    · rw [h] at ih
      by_cases hc : c = sep
      · subst hc
        simp only [if_pos rfl, joinSep]
        cases gs with
        | nil => simpa [joinSep] using ih
        | cons g2 gs2 => simpa [joinSep] using ih
      · simp only [if_neg hc]
        cases gs with
        | nil => simpa [joinSep] using ih
        | cons g2 gs2 =>
          simp only [joinSep, List.cons_append]
          simpa [joinSep] using ih

theorem mem_splitOnChar_not_mem (sep : Char) (cs : List Char) :
    ∀ g ∈ splitOnChar sep cs, sep ∉ g := by
  induction cs with
  | nil => intro g hg; simp [splitOnChar] at hg; simp [hg]
  | cons c rest ih =>
    intro g hg
    rw [splitOnChar_cons] at hg
    rcases h : splitOnChar sep rest with _ | ⟨g1, gs⟩
    · exact absurd h (splitOnChar_ne_nil sep rest)
    · rw [h] at hg
      replace hg : g ∈ (if c = sep then [] :: g1 :: gs else (c :: g1) :: gs) := hg
      by_cases hc : c = sep
      · rw [if_pos hc] at hg
        rcases List.mem_cons.mp hg with hg2 | hg2
        · subst hg2; simp
        · exact ih g (by rw [h]; exact hg2)
      · rw [if_neg hc] at hg
        rcases List.mem_cons.mp hg with hg2 | hg2
        · subst hg2
          have hg1 : sep ∉ g1 := ih g1 (by rw [h]; simp)
          simp only [List.mem_cons]
          rintro (hx | hx)
          · exact hc hx.symm
          · exact hg1 hx
        · exact ih g (by rw [h]; simp [hg2])

theorem splitOnChar_joinSep (sep : Char) (gs : List (List Char))
    (hne : gs ≠ []) (hfree : ∀ g ∈ gs, sep ∉ g) :
    splitOnChar sep (joinSep sep gs) = gs := by
  induction gs with
  | nil => exact absurd rfl hne
  | cons g rest ih =>
    have hg : sep ∉ g := hfree g (by simp)
    cases rest with
    | nil => exact splitOnChar_no_sep sep g hg
    | cons g2 rest2 =>
      have hrec : splitOnChar sep (joinSep sep (g2 :: rest2)) = g2 :: rest2 :=
        ih (by simp) (fun x hx => hfree x (by simp [hx]))
      show splitOnChar sep (g ++ sep :: joinSep sep (g2 :: rest2)) = g :: g2 :: rest2
      rw [splitOnChar_append_sep sep _ g hg, hrec]

theorem joinSep_append (sep : Char) (gs₁ gs₂ : List (List Char))
    (h₁ : gs₁ ≠ []) (h₂ : gs₂ ≠ []) :
    joinSep sep (gs₁ ++ gs₂) = joinSep sep gs₁ ++ sep :: joinSep sep gs₂ := by
  induction gs₁ with
  | nil => exact absurd rfl h₁
  | cons g rest ih =>
    cases rest with
    | nil =>
      cases gs₂ with
      | nil => exact absurd rfl h₂
      | cons g2 rest2 => simp [joinSep]
    | cons g1 rest1 =>
      have hrec := ih (by simp)
      rw [List.cons_append] at hrec
      show g ++ sep :: joinSep sep (g1 :: (rest1 ++ gs₂)) =
        (g ++ sep :: joinSep sep (g1 :: rest1)) ++ sep :: joinSep sep gs₂
      rw [hrec]
      simp

theorem mk_data (s : String) : String.mk s.data = s := by
  cases s
  rfl

/-- The length of a joined chunk group (`currentLines.join("\n").length`). -/
def glen (g : List String) : Nat := (joinSep '\n' (g.map String.data)).length

theorem glen_nil : glen [] = 0 := rfl

theorem glen_singleton (l : String) : glen [l] = l.data.length := rfl

theorem glen_snoc (g : List String) (l : String) (h : g ≠ []) :
    glen (g ++ [l]) = glen g + 1 + l.data.length := by
  unfold glen
  rw [List.map_append, List.map_singleton,
    joinSep_append _ _ _ (by simpa using h) (by simp)]
  simp only [List.length_append, List.length_cons, joinSep]
  omega

/-- The invariant of the `splitMessage` loop on fence-free input: no open
fence, the tracked `currentLen` is the joined length of the current chunk, the
current chunk fits in the limit, and every emitted group is non-empty and fits
in the limit. -/
structure NFInv (st : ChunkState) : Prop where
  open_none : st.openFence = none
  curLen_eq : st.curLen = glen st.cur
  curLen_le : st.curLen ≤ CHUNK_LIMIT
  groups_ne : ∀ g ∈ st.result, g ≠ []
  groups_le : ∀ g ∈ st.result, glen g ≤ CHUNK_LIMIT

theorem chunkStep_nf (st : ChunkState) (line : String)
    (hinv : NFInv st) (hfence : isFenceLine line = false)
    (hlen : line.data.length ≤ CHUNK_LIMIT) :
    NFInv (chunkStep st line) ∧
      (chunkStep st line).result.flatten ++ (chunkStep st line).cur =
        st.result.flatten ++ st.cur ++ [line] := by
  obtain ⟨hopen, hceq, hcle, hgne, hgle⟩ := hinv
  have hlen2 : line.length ≤ CHUNK_LIMIT := hlen
  rcases hcur : st.cur with _ | ⟨c0, cur'⟩
  · have hstep : chunkStep st line =
        { result := st.result, cur := [line], curLen := line.data.length,
          openFence := none } := by
      simp [chunkStep, hcur, hopen, hfence]
    rw [hstep]
    refine ⟨⟨rfl, by simp [glen_singleton], hlen, hgne, hgle⟩, ?_⟩
    simp [hcur]
  · have hne : st.cur ≠ [] := by rw [hcur]; simp
    by_cases hlt : CHUNK_LIMIT < st.curLen + (1 + line.data.length)
    · have hlt2 : CHUNK_LIMIT < st.curLen + (1 + line.length) := hlt
      have hstep : chunkStep st line =
          { result := st.result ++ [st.cur], cur := [line],
            curLen := line.data.length, openFence := none } := by
        simp only [chunkStep, hcur, hopen, hfence, List.isEmpty_cons,
          Option.isNone_none, Bool.false_eq_true, not_false_iff, and_true,
          if_false, if_true, Nat.add_zero]
        split
        · next h =>
          simp
        · next h =>
          exfalso
          omega
      rw [hstep]
      refine ⟨⟨rfl, by simp [glen_singleton], hlen, ?_, ?_⟩, ?_⟩
      · intro g hg
        rcases List.mem_append.mp hg with hin | hin
        · exact hgne g hin
        · simp at hin
          subst hin
          exact hne
      · intro g hg
        rcases List.mem_append.mp hg with hin | hin
        · exact hgle g hin
        · simp at hin
          subst hin
          rw [← hceq]
          exact hcle
      · simp [hcur]
    · have hlt2 : ¬(CHUNK_LIMIT < st.curLen + (1 + line.length)) := hlt
      have hstep : chunkStep st line =
          { result := st.result, cur := st.cur ++ [line],
            curLen := st.curLen + 1 + line.data.length, openFence := none } := by
        simp only [chunkStep, hcur, hopen, hfence, List.isEmpty_cons,
          Option.isNone_none, Bool.false_eq_true, not_false_iff, and_true,
          if_false, if_true, Nat.add_zero]
        split
        · next h =>
          exfalso
          omega
        · next h =>
          simp
          exact ⟨by simp [hcur], hne, hopen⟩
      rw [hstep]
      refine ⟨⟨rfl, ?_, ?_, hgne, hgle⟩, by simp [hcur]⟩
      · rw [glen_snoc st.cur line hne, hceq]
      · show st.curLen + 1 + line.data.length ≤ CHUNK_LIMIT
        omega

theorem chunkFold_nf (lines : List String) (st : ChunkState)
    (hinv : NFInv st)
    (hall : ∀ l ∈ lines, isFenceLine l = false ∧ l.data.length ≤ CHUNK_LIMIT) :
    NFInv (lines.foldl chunkStep st) ∧
      (lines.foldl chunkStep st).result.flatten ++ (lines.foldl chunkStep st).cur =
        st.result.flatten ++ st.cur ++ lines := by
  induction lines generalizing st with
  | nil => exact ⟨hinv, by simp⟩
  | cons l rest ih =>
    obtain ⟨hstep, hflat⟩ := chunkStep_nf st l hinv (hall l (by simp)).1
      (hall l (by simp)).2
    obtain ⟨hinv2, hflat2⟩ := ih (chunkStep st l) hstep
      (fun x hx => hall x (by simp [hx]))
    rw [List.foldl_cons]
    refine ⟨hinv2, ?_⟩
    rw [hflat2, hflat]
    simp

/-- Closed form of `chunkStep` when the current chunk is empty (the split
guard cannot fire) and no fence is open. -/
theorem chunkStep_empty_none (st : ChunkState) (line : String)
    (hcur : st.cur = []) (hopen : st.openFence = none) :
    chunkStep st line =
      { result := st.result, cur := [line], curLen := line.data.length,
        openFence := if isFenceLine line then some line else none } := by
  rcases st with ⟨res, cur, len, of⟩
  replace hcur : cur = [] := hcur
  replace hopen : of = none := hopen
  subst hcur
  subst hopen
  simp [chunkStep]

/-- Closed form of `chunkStep` when no fence is open and the line does not
fit: the current chunk is emitted as-is and the line starts a new chunk. -/
theorem chunkStep_split_none (st : ChunkState) (line : String)
    (hne : st.cur ≠ []) (hopen : st.openFence = none)
    (hlt : CHUNK_LIMIT < st.curLen + (1 + line.data.length)) :
    chunkStep st line =
      { result := st.result ++ [st.cur], cur := [line],
        curLen := line.data.length,
        openFence := if isFenceLine line then some line else none } := by
  rcases st with ⟨res, cur, len, of⟩
  replace hne : cur ≠ [] := hne
  replace hopen : of = none := hopen
  subst hopen
  replace hlt : CHUNK_LIMIT < len + (1 + line.data.length) := hlt
  rcases cur with _ | ⟨c0, cur'⟩
  · exact absurd rfl hne
  · simp only [chunkStep, List.isEmpty_cons, Option.isNone_none,
      Bool.false_eq_true, not_false_iff, and_true, if_false, if_true,
      Nat.add_zero]
    split
    · next h => simp
    · next h => exact absurd hlt h

/-- Closed form of `chunkStep` when no fence is open and the line fits: it is
appended to the current chunk. -/
theorem chunkStep_nosplit_none (st : ChunkState) (line : String)
    (hne : st.cur ≠ []) (hopen : st.openFence = none)
    (hlt : ¬(CHUNK_LIMIT < st.curLen + (1 + line.data.length))) :
    chunkStep st line =
      { result := st.result, cur := st.cur ++ [line],
        curLen := st.curLen + 1 + line.data.length,
        openFence := if isFenceLine line then some line else none } := by
  rcases st with ⟨res, cur, len, of⟩
  replace hne : cur ≠ [] := hne
  replace hopen : of = none := hopen
  subst hopen
  replace hlt : ¬(CHUNK_LIMIT < len + (1 + line.data.length)) := hlt
  rcases cur with _ | ⟨c0, cur'⟩
  · exact absurd rfl hne
  · simp only [chunkStep, List.isEmpty_cons, Option.isNone_none,
      Bool.false_eq_true, not_false_iff, and_true, if_false, if_true,
      Nat.add_zero]
    split
    · next h => exact absurd h hlt
    · next h => simp

/-- Closed form of `chunkStep` inside an open fence when the line (plus the
close-fence headroom) does not fit: the chunk is emitted with a closing fence
line and the fence is reopened at the top of the new chunk. -/
theorem chunkStep_split_some (st : ChunkState) (line f : String)
    (hne : st.cur ≠ []) (hopen : st.openFence = some f)
    (hlt : CHUNK_LIMIT < st.curLen + (1 + line.data.length) + 4) :
    chunkStep st line =
      { result := st.result ++ [st.cur ++ ["```"]], cur := [f, line],
        curLen := f.data.length + 1 + line.data.length,
        openFence := if isFenceLine line then none else some f } := by
  rcases st with ⟨res, cur, len, of⟩
  replace hne : cur ≠ [] := hne
  replace hopen : of = some f := hopen
  subst hopen
  replace hlt : CHUNK_LIMIT < len + (1 + line.data.length) + 4 := hlt
  rcases cur with _ | ⟨c0, cur'⟩
  · exact absurd rfl hne
  · simp only [chunkStep, List.isEmpty_cons, Option.isNone_some,
      Bool.false_eq_true, not_false_iff, and_true, if_false, if_true]
    split
    · next h => simp
    · next h => exact absurd hlt h

/-- Closed form of `chunkStep` inside an open fence when the line still fits:
it is appended and the fence toggles on fence lines. -/
theorem chunkStep_nosplit_some (st : ChunkState) (line f : String)
    (hne : st.cur ≠ []) (hopen : st.openFence = some f)
    (hlt : ¬(CHUNK_LIMIT < st.curLen + (1 + line.data.length) + 4)) :
    chunkStep st line =
      { result := st.result, cur := st.cur ++ [line],
        curLen := st.curLen + 1 + line.data.length,
        openFence := if isFenceLine line then none else some f } := by
  rcases st with ⟨res, cur, len, of⟩
  replace hne : cur ≠ [] := hne
  replace hopen : of = some f := hopen
  subst hopen
  replace hlt : ¬(CHUNK_LIMIT < len + (1 + line.data.length) + 4) := hlt
  rcases cur with _ | ⟨c0, cur'⟩
  · exact absurd rfl hne
  · simp only [chunkStep, List.isEmpty_cons, Option.isNone_some,
      Bool.false_eq_true, not_false_iff, and_true, if_false, if_true]
    split
    · next h => exact absurd h hlt
    · next h => simp

/-- On fence-free lines the loop keeps no open fence, keeps every emitted
group non-empty, and preserves the flattened line stream (no length bound on
the lines is needed). -/
theorem chunkStep_flat (st : ChunkState) (line : String)
    (hopen : st.openFence = none) (hgne : ∀ g ∈ st.result, g ≠ [])
    (hfence : isFenceLine line = false) :
    (chunkStep st line).openFence = none ∧
      (∀ g ∈ (chunkStep st line).result, g ≠ []) ∧
      (chunkStep st line).result.flatten ++ (chunkStep st line).cur =
        st.result.flatten ++ st.cur ++ [line] := by
  rcases hcur : st.cur with _ | ⟨c0, cur'⟩
  · rw [chunkStep_empty_none st line hcur hopen]
    exact ⟨by simp [hfence], hgne, by simp [hcur]⟩
  · have hne : st.cur ≠ [] := by rw [hcur]; simp
    by_cases hlt : CHUNK_LIMIT < st.curLen + (1 + line.data.length)
    · rw [chunkStep_split_none st line hne hopen hlt]
      refine ⟨by simp [hfence], ?_, by simp [hcur]⟩
      intro g hg
      rcases List.mem_append.mp hg with h | h
      · exact hgne g h
      · simp at h
        subst h
        exact hne
    · rw [chunkStep_nosplit_none st line hne hopen hlt]
      exact ⟨by simp [hfence], hgne, by simp [hcur]⟩

/-- Fold version of `chunkStep_flat` over a fence-free line list. -/
theorem chunkFold_flat (lines : List String) (st : ChunkState)
    (hopen : st.openFence = none) (hgne : ∀ g ∈ st.result, g ≠ [])
    (hall : ∀ l ∈ lines, isFenceLine l = false) :
    (lines.foldl chunkStep st).openFence = none ∧
      (∀ g ∈ (lines.foldl chunkStep st).result, g ≠ []) ∧
      (lines.foldl chunkStep st).result.flatten ++ (lines.foldl chunkStep st).cur =
        st.result.flatten ++ st.cur ++ lines := by
  induction lines generalizing st with
  | nil => exact ⟨hopen, hgne, by simp⟩
  | cons l rest ih =>
    obtain ⟨h1, h2, h3⟩ := chunkStep_flat st l hopen hgne (hall l (by simp))
    obtain ⟨h4, h5, h6⟩ := ih (chunkStep st l) h1 h2
      (fun x hx => hall x (by simp [hx]))
    rw [List.foldl_cons]
    refine ⟨h4, h5, ?_⟩
    rw [h6, h3]
    simp

/-- A list of lists with a non-empty head has a non-empty flatten. -/
theorem flatten_ne_nil {α : Type} (g : List α) (G : List (List α)) (hg : g ≠ []) :
    (g :: G).flatten ≠ [] := by
  rcases g with _ | ⟨c, cs⟩
  · exact absurd rfl hg
  · simp

/-- Joining already-joined groups equals joining the flattened groups, as long
as every group is non-empty (JavaScript: `groups.map(g => g.join(s)).join(s)
=== groups.flat().join(s)`). -/
theorem joinSep_flatten (sep : Char) (G : List (List (List Char)))
    (hne : ∀ g ∈ G, g ≠ []) :
    joinSep sep (G.map (joinSep sep)) = joinSep sep G.flatten := by
  induction G with
  | nil => rfl
  | cons g G ih =>
    cases G with
    | nil => simp [joinSep]
    | cons g2 G2 =>
      have hg : g ≠ [] := hne g (by simp)
      have hg2 : g2 ≠ [] := hne g2 (by simp)
      have hrec := ih (fun x hx => hne x (by simp at hx; simp [hx]))
      show joinSep sep g ++ sep :: joinSep sep ((g2 :: G2).map (joinSep sep)) =
        joinSep sep (g ++ (g2 :: G2).flatten)
      rw [hrec, joinSep_append sep g (g2 :: G2).flatten hg
        (flatten_ne_nil g2 G2 hg2)]

/-- Every line produced by `split("\n")` is newline-free. -/
theorem splitLines_noNL (s : String) : ∀ l ∈ splitLines s, '\n' ∉ l.data := by
  intro l hl
  unfold splitLines at hl
  obtain ⟨cs, hcs, rfl⟩ := List.mem_map.mp hl
  simpa using mem_splitOnChar_not_mem ('\n') s.data cs hcs

/-- `join("\n")` then `split("\n")` is the identity on non-empty lists of
newline-free lines. -/
theorem splitLines_joinLines (g : List String) (hne : g ≠ [])
    (hnl : ∀ l ∈ g, '\n' ∉ l.data) :
    splitLines (joinLines g) = g := by
  unfold splitLines joinLines
  rw [splitOnChar_joinSep ('\n') (g.map String.data)
    (by simpa using hne)
    (by
      intro x hx
      obtain ⟨l, hl, rfl⟩ := List.mem_map.mp hx
      exact hnl l hl)]
  rw [List.map_map]
  have hid : ∀ l ∈ g, ((fun cs => (⟨cs⟩ : String)) ∘ String.data) l = l :=
    fun l _ => mk_data l
  rw [List.map_congr_left hid]
  simp

/-- `split("\n")` then `join("\n")` is the identity. -/
theorem joinLines_splitLines (s : String) : joinLines (splitLines s) = s := by
  unfold splitLines joinLines
  rw [List.map_map]
  have hid : ∀ cs ∈ splitOnChar ('\n') s.data,
      (String.data ∘ fun cs => (⟨cs⟩ : String)) cs = cs := fun cs _ => rfl
  rw [List.map_congr_left hid]
  show (⟨joinSep '\n' (List.map id (splitOnChar '\n' s.data))⟩ : String) = s
  rw [List.map_id, joinSep_splitOnChar, mk_data]

/-- Joining joined groups equals joining the flattened groups, at the string
level. -/
theorem joinLines_map_joinLines (G : List (List String))
    (hne : ∀ g ∈ G, g ≠ []) :
    joinLines (G.map joinLines) = joinLines G.flatten := by
  show (⟨joinSep '\n' ((G.map joinLines).map String.data)⟩ : String) =
    ⟨joinSep '\n' (G.flatten.map String.data)⟩
  have h1 : (G.map joinLines).map String.data =
      (G.map (List.map String.data)).map (joinSep '\n') := by
    rw [List.map_map, List.map_map]
    exact List.map_congr_left (fun g _ => rfl)
  rw [h1, joinSep_flatten '\n' (G.map (List.map String.data))
    (by
      intro x hx
      obtain ⟨g, hg, rfl⟩ := List.mem_map.mp hx
      simpa using hne g hg), List.map_flatten]
/-- The number of fence-delimiter lines in a line group. -/
def countFences (g : List String) : Nat := g.countP (fun l => isFenceLine l)

/-- The number of fence-delimiter lines of a string, counted per line. -/
def fenceCountStr (s : String) : Nat := countFences (splitLines s)

theorem countFences_append (g1 g2 : List String) :
    countFences (g1 ++ g2) = countFences g1 + countFences g2 := by
  simp [countFences, List.countP_append]

theorem countFences_singleton (l : String) :
    countFences [l] = if isFenceLine l then 1 else 0 := by
  simp [countFences, List.countP_cons]

/-- The invariant of the `splitMessage` loop on arbitrary input: the parity of
the fence lines in the current chunk matches the open-fence flag, every
emitted group has an even fence count and is non-empty, the remembered fence
opener is a newline-free fence line, and all tracked lines are newline-free. -/
structure PInv (st : ChunkState) : Prop where
  cur_par : countFences st.cur % 2 = (if st.openFence.isSome then 1 else 0)
  groups_even : ∀ g ∈ st.result, countFences g % 2 = 0
  groups_ne : ∀ g ∈ st.result, g ≠ []
  open_fence : ∀ f, st.openFence = some f → isFenceLine f = true
  open_nl : ∀ f, st.openFence = some f → '\n' ∉ f.data
  cur_nl : ∀ l ∈ st.cur, '\n' ∉ l.data
  groups_nl : ∀ g ∈ st.result, ∀ l ∈ g, '\n' ∉ l.data

/-- One loop iteration preserves the parity invariant, and the open-fence
flag toggles exactly on fence lines. -/
theorem chunkStep_pinv (st : ChunkState) (line : String)
    (hinv : PInv st) (hnl : '\n' ∉ line.data) :
    PInv (chunkStep st line) ∧
      (chunkStep st line).openFence.isSome =
        (if isFenceLine line then !st.openFence.isSome
          else st.openFence.isSome) := by
  obtain ⟨hpar, hge, hgne, hof, honl, hcnl, hgnl⟩ := hinv
  have hbt : isFenceLine "```" = true := by decide
  have hbnl : '\n' ∉ "```".data := by decide
  rcases hofe : st.openFence with _ | f
  · rw [hofe] at hpar
    simp only [Option.isSome_none, Bool.false_eq_true, if_false] at hpar
    rcases hcur : st.cur with _ | ⟨c0, cur'⟩
    · rw [chunkStep_empty_none st line hcur hofe]
      refine ⟨⟨?_, hge, hgne, ?_, ?_, ?_, hgnl⟩, ?_⟩
      · by_cases hF : isFenceLine line = true
        · simp [countFences, List.countP_cons, hF]
        · simp [countFences, List.countP_cons, hF]
      · intro f' hf'
        by_cases hF : isFenceLine line = true
        · rw [if_pos hF] at hf'
          injection hf' with h
          subst h
          exact hF
        · rw [if_neg hF] at hf'
          exact Option.noConfusion hf'
      · intro f' hf'
        by_cases hF : isFenceLine line = true
        · rw [if_pos hF] at hf'
          injection hf' with h
          subst h
          exact hnl
        · rw [if_neg hF] at hf'
          exact Option.noConfusion hf'
      · intro l hl
        simp at hl
        subst hl
        exact hnl
      · by_cases hF : isFenceLine line = true <;> simp [hF]
    · have hne : st.cur ≠ [] := by rw [hcur]; simp
      by_cases hlt : CHUNK_LIMIT < st.curLen + (1 + line.data.length)
      · rw [chunkStep_split_none st line hne hofe hlt]
        refine ⟨⟨?_, ?_, ?_, ?_, ?_, ?_, ?_⟩, ?_⟩
        · by_cases hF : isFenceLine line = true
          · simp [countFences, List.countP_cons, hF]
          · simp [countFences, List.countP_cons, hF]
        · intro g hg
          rcases List.mem_append.mp hg with h | h
          · exact hge g h
          · simp at h
            subst h
            exact hpar
        · intro g hg
          rcases List.mem_append.mp hg with h | h
          · exact hgne g h
          · simp at h
            subst h
            exact hne
        · intro f' hf'
          by_cases hF : isFenceLine line = true
          · rw [if_pos hF] at hf'
            injection hf' with h
            subst h
            exact hF
          · rw [if_neg hF] at hf'
            exact Option.noConfusion hf'
        · intro f' hf'
          by_cases hF : isFenceLine line = true
          · rw [if_pos hF] at hf'
            injection hf' with h
            subst h
            exact hnl
          · rw [if_neg hF] at hf'
            exact Option.noConfusion hf'
        · intro l hl
          simp at hl
          subst hl
          exact hnl
        · intro g hg
          rcases List.mem_append.mp hg with h | h
          · exact hgnl g h
          · simp at h
            subst h
            exact hcnl
        · by_cases hF : isFenceLine line = true <;> simp [hF]
      · rw [chunkStep_nosplit_none st line hne hofe hlt]
        refine ⟨⟨?_, hge, hgne, ?_, ?_, ?_, hgnl⟩, ?_⟩
        · rw [countFences_append, countFences_singleton]
          by_cases hF : isFenceLine line = true
          · simp only [hF, if_true, Option.isSome_some]
            omega
          · simp only [hF, if_false, Option.isSome_none, Bool.false_eq_true]
            omega
        · intro f' hf'
          by_cases hF : isFenceLine line = true
          · rw [if_pos hF] at hf'
            injection hf' with h
            subst h
            exact hF
          · rw [if_neg hF] at hf'
            exact Option.noConfusion hf'
        · intro f' hf'
          by_cases hF : isFenceLine line = true
          · rw [if_pos hF] at hf'
            injection hf' with h
            subst h
            exact hnl
          · rw [if_neg hF] at hf'
            exact Option.noConfusion hf'
        · intro l hl
          rcases List.mem_append.mp hl with h | h
          · exact hcnl l h
          · simp at h
            subst h
            exact hnl
        · by_cases hF : isFenceLine line = true <;> simp [hF]
  · rw [hofe] at hpar
    simp only [Option.isSome_some, if_true] at hpar
    have hff : isFenceLine f = true := hof f hofe
    have hfnl : '\n' ∉ f.data := honl f hofe
    rcases hcur : st.cur with _ | ⟨c0, cur'⟩
    · exfalso
      rw [hcur] at hpar
      simp [countFences] at hpar
    · have hne : st.cur ≠ [] := by rw [hcur]; simp
      by_cases hlt : CHUNK_LIMIT < st.curLen + (1 + line.data.length) + 4
      · rw [chunkStep_split_some st line f hne hofe hlt]
        refine ⟨⟨?_, ?_, ?_, ?_, ?_, ?_, ?_⟩, ?_⟩
        · by_cases hF : isFenceLine line = true
          · simp [countFences, List.countP_cons, hff, hF]
          · simp [countFences, List.countP_cons, hff, hF]
        · intro g hg
          rcases List.mem_append.mp hg with h | h
          · exact hge g h
          · simp at h
            subst h
            rw [countFences_append, countFences_singleton, if_pos hbt]
            omega
        · intro g hg
          rcases List.mem_append.mp hg with h | h
          · exact hgne g h
          · simp at h
            subst h
            simp
        · intro f' hf'
          by_cases hF : isFenceLine line = true
          · rw [if_pos hF] at hf'
            exact Option.noConfusion hf'
          · rw [if_neg hF] at hf'
            injection hf' with h
            subst h
            exact hff
        · intro f' hf'
          by_cases hF : isFenceLine line = true
          · rw [if_pos hF] at hf'
            exact Option.noConfusion hf'
          · rw [if_neg hF] at hf'
            injection hf' with h
            subst h
            exact hfnl
        · intro l hl
          simp at hl
          rcases hl with h | h
          · subst h
            exact hfnl
          · subst h
            exact hnl
        · intro g hg
          rcases List.mem_append.mp hg with h | h
          · exact hgnl g h
          · simp at h
            subst h
            intro l hl
            rcases List.mem_append.mp hl with h2 | h2
            · exact hcnl l h2
            · simp at h2
              subst h2
              exact hbnl
        · by_cases hF : isFenceLine line = true <;> simp [hF]
      · rw [chunkStep_nosplit_some st line f hne hofe hlt]
        refine ⟨⟨?_, hge, hgne, ?_, ?_, ?_, hgnl⟩, ?_⟩
        · rw [countFences_append, countFences_singleton]
          by_cases hF : isFenceLine line = true
          · rw [if_pos hF, if_pos hF]
            show (countFences st.cur + 1) % 2 = 0
            omega
          · rw [if_neg hF, if_neg hF]
            show (countFences st.cur + 0) % 2 = 1
            omega
        · intro f' hf'
          by_cases hF : isFenceLine line = true
          · rw [if_pos hF] at hf'
            exact Option.noConfusion hf'
          · rw [if_neg hF] at hf'
            injection hf' with h
            subst h
            exact hff
        · intro f' hf'
          by_cases hF : isFenceLine line = true
          · rw [if_pos hF] at hf'
            exact Option.noConfusion hf'
          · rw [if_neg hF] at hf'
            injection hf' with h
            subst h
            exact hfnl
        · intro l hl
          rcases List.mem_append.mp hl with h | h
          · exact hcnl l h
          · simp at h
            subst h
            exact hnl
        · by_cases hF : isFenceLine line = true <;> simp [hF]

/-- Fold version of `chunkStep_pinv`: the final open-fence flag is the fold of
the per-line fence toggles. -/
theorem chunkFold_pinv (lines : List String) (st : ChunkState)
    (hinv : PInv st) (hnl : ∀ l ∈ lines, '\n' ∉ l.data) :
    PInv (lines.foldl chunkStep st) ∧
      (lines.foldl chunkStep st).openFence.isSome =
        lines.foldl (fun b l => if isFenceLine l then !b else b)
          st.openFence.isSome := by
  induction lines generalizing st with
  | nil => exact ⟨hinv, rfl⟩
  | cons l rest ih =>
    obtain ⟨h1, h2⟩ := chunkStep_pinv st l hinv (hnl l (by simp))
    obtain ⟨h3, h4⟩ := ih (chunkStep st l) h1 (fun x hx => hnl x (by simp [hx]))
    rw [List.foldl_cons, List.foldl_cons]
    exact ⟨h3, by rw [h4, h2]⟩

/-- Folding the fence toggle computes the parity of the fence-line count. -/
theorem foldl_toggle_parity (lines : List String) : ∀ b : Bool,
    lines.foldl (fun a l => if isFenceLine l then !a else a) b =
      (if countFences lines % 2 = 1 then !b else b) := by
  induction lines with
  | nil =>
    intro b
    have h0 : countFences ([] : List String) = 0 := rfl
    rw [List.foldl_nil, h0, if_neg (by omega)]
  | cons l rest ih =>
    intro b
    rw [List.foldl_cons, ih]
    have hc : countFences (l :: rest) = countFences rest +
        (if isFenceLine l then 1 else 0) := by
      simp [countFences, List.countP_cons]
    rw [hc]
    by_cases hF : isFenceLine l = true
    · rw [if_pos hF, if_pos hF]
      by_cases hp : countFences rest % 2 = 1
      · rw [if_pos hp, if_neg (by omega), Bool.not_not]
      · rw [if_neg hp, if_pos (by omega)]
    · rw [if_neg hF, if_neg hF, Nat.add_zero]

/-- The final loop state of `splitMessage` on a given content string. -/
def chunkFinal (content : String) : ChunkState :=
  (splitLines content).foldl chunkStep ⟨[], [], 0, none⟩

theorem chunkGroups_def (content : String) :
    chunkGroups content = (chunkFinal content).result ++
      (if (chunkFinal content).cur.isEmpty then []
        else [(chunkFinal content).cur]) := rfl

/-- On fence-free input the chunk groups flatten back to the exact line list
and every group is non-empty. -/
theorem chunkGroups_flatten (content : String)
    (hnf : ∀ l ∈ splitLines content, isFenceLine l = false) :
    (chunkGroups content).flatten = splitLines content ∧
      ∀ g ∈ chunkGroups content, g ≠ [] := by
  obtain ⟨hopen, hgne, hflat⟩ := chunkFold_flat (splitLines content)
    ⟨[], [], 0, none⟩ rfl (fun g hg => absurd hg (by simp)) hnf
  have hgne2 : ∀ g ∈ (chunkFinal content).result, g ≠ [] := hgne
  have hflat2 : (chunkFinal content).result.flatten ++ (chunkFinal content).cur =
      splitLines content := by
    have h : (chunkFinal content).result.flatten ++ (chunkFinal content).cur =
        ([] : List (List String)).flatten ++ [] ++ splitLines content := hflat
    simpa using h
  rw [chunkGroups_def]
  by_cases hc : (chunkFinal content).cur.isEmpty
  · have hcur : (chunkFinal content).cur = [] := by
      rwa [List.isEmpty_iff] at hc
    rw [if_pos hc]
    constructor
    · rw [List.append_nil, ← hflat2, hcur, List.append_nil]
    · simpa using hgne2
  · have hcur : (chunkFinal content).cur ≠ [] := by
      intro h
      rw [h] at hc
      simp at hc
    rw [if_neg hc]
    constructor
    · rw [List.flatten_append]
      simpa using hflat2
    · intro g hg
      rcases List.mem_append.mp hg with h | h
      · exact hgne2 g h
      · simp at h
        subst h
        exact hcur

/-- On fence-free input whose lines all fit, every chunk group joins to at
most `CHUNK_LIMIT` characters. -/
theorem chunkGroups_le (content : String)
    (hnf : ∀ l ∈ splitLines content, isFenceLine l = false)
    (hlen : ∀ l ∈ splitLines content, l.data.length ≤ CHUNK_LIMIT) :
    ∀ g ∈ chunkGroups content, glen g ≤ CHUNK_LIMIT := by
  have hinv0 : NFInv ⟨[], [], 0, none⟩ :=
    ⟨rfl, rfl, Nat.zero_le _, by simp, by simp⟩
  obtain ⟨hfin, -⟩ := chunkFold_nf (splitLines content) ⟨[], [], 0, none⟩ hinv0
    (fun l hl => ⟨hnf l hl, hlen l hl⟩)
  have hfin2 : NFInv (chunkFinal content) := hfin
  obtain ⟨-, hceq, hcle, -, hgle⟩ := hfin2
  intro g hg
  rw [chunkGroups_def] at hg
  rcases List.mem_append.mp hg with h | h
  · exact hgle g h
  · by_cases hc : (chunkFinal content).cur.isEmpty
    · rw [if_pos hc] at h
      simp at h
    · rw [if_neg hc] at h
      simp at h
      subst h
      rw [← hceq]
      exact hcle

/-- If the input has an even number of fence lines, every chunk group has an
even fence count, is non-empty, and contains only newline-free lines. -/
theorem chunkGroups_even (content : String)
    (hpar : fenceCountStr content % 2 = 0) :
    ∀ g ∈ chunkGroups content,
      countFences g % 2 = 0 ∧ g ≠ [] ∧ ∀ l ∈ g, '\n' ∉ l.data := by
  have hinv0 : PInv ⟨[], [], 0, none⟩ := by
    refine ⟨rfl, ?_, ?_, ?_, ?_, ?_, ?_⟩ <;> simp
  obtain ⟨hfin, hsome⟩ := chunkFold_pinv (splitLines content)
    ⟨[], [], 0, none⟩ hinv0 (splitLines_noNL content)
  have hfin2 : PInv (chunkFinal content) := hfin
  have hsome2 : (chunkFinal content).openFence.isSome =
      (splitLines content).foldl (fun b l => if isFenceLine l then !b else b)
        false := hsome
  rw [foldl_toggle_parity] at hsome2
  unfold fenceCountStr at hpar
  rw [if_neg (by omega)] at hsome2
  have hnone : (chunkFinal content).openFence = none := by
    rcases h : (chunkFinal content).openFence with _ | f
    · rfl
    · rw [h] at hsome2
      simp at hsome2
  obtain ⟨hcp, hge, hgne, -, -, hcnl, hgnl⟩ := hfin2
  rw [hnone] at hcp
  simp only [Option.isSome_none, Bool.false_eq_true, if_false] at hcp
  intro g hg
  rw [chunkGroups_def] at hg
  rcases List.mem_append.mp hg with h | h
  · exact ⟨hge g h, hgne g h, hgnl g h⟩
  · by_cases hc : (chunkFinal content).cur.isEmpty
    · rw [if_pos hc] at h
      simp at h
    · rw [if_neg hc] at h
      simp at h
      subst h
      refine ⟨hcp, ?_, hcnl⟩
      intro h2
      rw [h2] at hc
      simp at hc

/-- C3 (amended): for every content string, (1) on fence-free input the
chunks of `splitMessage` joined back with a newline reproduce the input
exactly; (2) on fence-free input whose lines all fit in the 1800-character
limit, every chunk is at most 1800 characters; (3) when the input has an even
number of fence-delimiter lines, no chunk contains an odd number of fence
lines. (The unamended claim fails: a single overlong line yields an oversized
chunk, fence close/reopen inserts extra fence lines that break the exact
round-trip, and an input with an odd fence count yields an odd-fence chunk.) -/
theorem c3_split_message (content : String) :
    ((∀ l ∈ splitLines content, isFenceLine l = false) →
      joinLines (splitMessage content) = content) ∧
    ((∀ l ∈ splitLines content, isFenceLine l = false) →
      (∀ l ∈ splitLines content, l.data.length ≤ CHUNK_LIMIT) →
      ∀ chunk ∈ splitMessage content, chunk.data.length ≤ CHUNK_LIMIT) ∧
    (fenceCountStr content % 2 = 0 →
      ∀ chunk ∈ splitMessage content, fenceCountStr chunk % 2 = 0) := by
  by_cases hsize : content.data.length ≤ CHUNK_LIMIT
  · have hsm : splitMessage content = [content] := by
      unfold splitMessage
      rw [if_pos hsize]
    refine ⟨fun _ => ?_, fun _ _ => ?_, fun hpar => ?_⟩
    · rw [hsm]
      exact mk_data content
    · rw [hsm]
      intro chunk hc
      simp at hc
      subst hc
      exact hsize
    · rw [hsm]
      intro chunk hc
      simp at hc
      subst hc
      exact hpar
  · have hsm : splitMessage content = (chunkGroups content).map joinLines := by
      unfold splitMessage
      rw [if_neg hsize]
    refine ⟨fun hnf => ?_, fun hnf hlen => ?_, fun hpar => ?_⟩
    · obtain ⟨hfl, hne⟩ := chunkGroups_flatten content hnf
      rw [hsm, joinLines_map_joinLines (chunkGroups content) hne, hfl,
        joinLines_splitLines]
    · intro chunk hc
      rw [hsm] at hc
      obtain ⟨g, hg, rfl⟩ := List.mem_map.mp hc
      exact chunkGroups_le content hnf hlen g hg
    · intro chunk hc
      rw [hsm] at hc
      obtain ⟨g, hg, rfl⟩ := List.mem_map.mp hc
      obtain ⟨hev, hgne, hgnl⟩ := chunkGroups_even content hpar g hg
      unfold fenceCountStr
      rw [splitLines_joinLines g hgne hgnl]
      exact hev

/-- A single 1801-character line: `splitMessage` keeps it whole, so one chunk
exceeds the limit. -/
def longLine : String := ⟨List.replicate 1801 'a'⟩

/-- A 900-character fenced-code line. -/
def aLine : String := ⟨List.replicate 900 'a'⟩

/-- A second 900-character fenced-code line. -/
def bLine : String := ⟨List.replicate 900 'b'⟩

/-- A fenced message that must split: the close/reopen inserts extra fence
lines, so the joined chunks differ from the input. -/
def fenceSplitInput : String := joinLines ["```", aLine, bLine]

/-- A bare fence delimiter: returned as a single chunk with an odd number of
fence lines. -/
def fenceOnly : String := "```"

theorem longLine_len : longLine.data.length = 1801 := by
  show (List.replicate 1801 'a').length = 1801
  rw [List.length_replicate]

theorem longLine_noNL : '\n' ∉ longLine.data := by
  intro h
  have h2 : '\n' ∈ List.replicate 1801 'a' := h
  rw [List.mem_replicate] at h2
  exact absurd h2.2 (by decide)

theorem longLine_not_fence : isFenceLine longLine = false := by
  decide

theorem aLine_len : aLine.data.length = 900 := by
  show (List.replicate 900 'a').length = 900
  rw [List.length_replicate]

theorem bLine_len : bLine.data.length = 900 := by
  show (List.replicate 900 'b').length = 900
  rw [List.length_replicate]

theorem aLine_noNL : '\n' ∉ aLine.data := by
  intro h
  have h2 : '\n' ∈ List.replicate 900 'a' := h
  rw [List.mem_replicate] at h2
  exact absurd h2.2 (by decide)

theorem bLine_noNL : '\n' ∉ bLine.data := by
  intro h
  have h2 : '\n' ∈ List.replicate 900 'b' := h
  rw [List.mem_replicate] at h2
  exact absurd h2.2 (by decide)

theorem aLine_not_fence : isFenceLine aLine = false := by
  decide

theorem bLine_not_fence : isFenceLine bLine = false := by
  decide

/-- `splitMessage` on the single long line: the whole line is one chunk. -/
theorem splitMessage_longLine : splitMessage longLine = [longLine] := by
  have hsplit : splitLines longLine = [longLine] := by
    unfold splitLines
    rw [splitOnChar_no_sep '\n' longLine.data longLine_noNL]
    rw [List.map_cons, List.map_nil, mk_data]
  have hstep : chunkStep ⟨[], [], 0, none⟩ longLine =
      ⟨[], [longLine], longLine.data.length, none⟩ := by
    rw [chunkStep_empty_none _ _ rfl rfl, longLine_not_fence]
    rfl
  have hcf : chunkFinal longLine =
      ⟨[], [longLine], longLine.data.length, none⟩ := by
    unfold chunkFinal
    rw [hsplit, List.foldl_cons, List.foldl_nil, hstep]
  have hgroups : chunkGroups longLine = [[longLine]] := by
    rw [chunkGroups_def, hcf]
    rfl
  unfold splitMessage
  rw [if_neg (by rw [longLine_len]; decide), hgroups]
  have hj : joinLines [longLine] = longLine := mk_data longLine
  rw [List.map_cons, List.map_nil, hj]

/-- The fenced input splits into a closed chunk and a reopened chunk. -/
theorem splitMessage_fenceSplitInput :
    splitMessage fenceSplitInput =
      [joinLines ["```", aLine, "```"], joinLines ["```", bLine]] := by
  have hsplit : splitLines fenceSplitInput = ["```", aLine, bLine] := by
    unfold fenceSplitInput
    refine splitLines_joinLines _ (by simp) ?_
    intro l hl
    simp at hl
    rcases hl with h | h | h <;> subst h
    · decide
    · exact aLine_noNL
    · exact bLine_noNL
  have h1 : chunkStep ⟨[], [], 0, none⟩ "```" =
      ⟨[], ["```"], 3, some "```"⟩ := by
    rw [chunkStep_empty_none _ _ rfl rfl]
    rfl
  have hlt2 : ¬(CHUNK_LIMIT <
      (⟨[], ["```"], 3, some "```"⟩ : ChunkState).curLen +
        (1 + aLine.data.length) + 4) := by
    rw [aLine_len]
    decide
  have h2 : chunkStep ⟨[], ["```"], 3, some "```"⟩ aLine =
      ⟨[], ["```", aLine], 904, some "```"⟩ := by
    rw [chunkStep_nosplit_some _ _ "```" (by simp) rfl hlt2, aLine_not_fence,
      aLine_len]
    rfl
  have hlt3 : CHUNK_LIMIT <
      (⟨[], ["```", aLine], 904, some "```"⟩ : ChunkState).curLen +
        (1 + bLine.data.length) + 4 := by
    rw [bLine_len]
    decide
  have h3 : chunkStep ⟨[], ["```", aLine], 904, some "```"⟩ bLine =
      ⟨[["```", aLine, "```"]], ["```", bLine], 904, some "```"⟩ := by
    rw [chunkStep_split_some _ _ "```" (by simp) rfl hlt3, bLine_not_fence,
      bLine_len]
    rfl
  have hcf : chunkFinal fenceSplitInput =
      ⟨[["```", aLine, "```"]], ["```", bLine], 904, some "```"⟩ := by
    unfold chunkFinal
    rw [hsplit, List.foldl_cons, h1, List.foldl_cons, h2, List.foldl_cons, h3,
      List.foldl_nil]
  have hgroups : chunkGroups fenceSplitInput =
      [["```", aLine, "```"], ["```", bLine]] := by
    rw [chunkGroups_def, hcf]
    rfl
  have hlen : fenceSplitInput.data.length = 1805 := by
    have hd : fenceSplitInput.data =
        ("```" : String).data ++ '\n' :: (aLine.data ++ '\n' :: bLine.data) := by
      show joinSep '\n' (["```", aLine, bLine].map String.data) =
        ("```" : String).data ++ '\n' :: (aLine.data ++ '\n' :: bLine.data)
      rw [List.map_cons, List.map_cons, List.map_cons, List.map_nil]
      rfl
    rw [hd]
    simp only [List.length_append, List.length_cons, aLine_len, bLine_len]
    decide
  unfold splitMessage
  rw [if_neg (by rw [hlen]; decide), hgroups]
  rw [List.map_cons, List.map_cons, List.map_nil]

/-- C3 as stated is false on all three conjuncts: an overlong single line
yields an oversized chunk; splitting inside a fence inserts close/reopen
fence lines so the joined chunks differ from the input; and a bare fence
input yields a chunk with an odd fence count. -/
theorem c3_split_message_claim_false :
    (∃ chunk ∈ splitMessage longLine, CHUNK_LIMIT < chunk.data.length) ∧
      joinLines (splitMessage fenceSplitInput) ≠ fenceSplitInput ∧
      ∃ chunk ∈ splitMessage fenceOnly, fenceCountStr chunk % 2 = 1 := by
  refine ⟨?_, ?_, ?_⟩
  · rw [splitMessage_longLine]
    refine ⟨longLine, by simp, ?_⟩
    rw [longLine_len]
    decide
  · rw [splitMessage_fenceSplitInput]
    intro heq
    have hlen := congrArg (fun s => s.data.length) heq
    simp only at hlen
    have hL : (joinLines [joinLines ["```", aLine, "```"],
        joinLines ["```", bLine]]).data.length = 1813 := by
      have hd1 : (joinLines ["```", aLine, "```"]).data =
          ("```" : String).data ++ '\n' ::
            (aLine.data ++ '\n' :: ("```" : String).data) := by
        show joinSep '\n' (["```", aLine, "```"].map String.data) =
          ("```" : String).data ++ '\n' ::
            (aLine.data ++ '\n' :: ("```" : String).data)
        rw [List.map_cons, List.map_cons, List.map_cons, List.map_nil]
        rfl
      have hd2 : (joinLines ["```", bLine]).data =
          ("```" : String).data ++ '\n' :: bLine.data := by
        show joinSep '\n' (["```", bLine].map String.data) =
          ("```" : String).data ++ '\n' :: bLine.data
        rw [List.map_cons, List.map_cons, List.map_nil]
        rfl
      show (joinSep '\n' [(joinLines ["```", aLine, "```"]).data,
        (joinLines ["```", bLine]).data]).length = 1813
      rw [show joinSep '\n' [(joinLines ["```", aLine, "```"]).data,
        (joinLines ["```", bLine]).data] =
          (joinLines ["```", aLine, "```"]).data ++ '\n' ::
            (joinLines ["```", bLine]).data from rfl]
      rw [hd1, hd2]
      simp only [List.length_append, List.length_cons, aLine_len, bLine_len]
      decide
    have hR : fenceSplitInput.data.length = 1805 := by
      have hd : fenceSplitInput.data =
          ("```" : String).data ++ '\n' :: (aLine.data ++ '\n' :: bLine.data) := by
        show joinSep '\n' (["```", aLine, bLine].map String.data) =
          ("```" : String).data ++ '\n' :: (aLine.data ++ '\n' :: bLine.data)
        rw [List.map_cons, List.map_cons, List.map_cons, List.map_nil]
        rfl
      rw [hd]
      simp only [List.length_append, List.length_cons, aLine_len, bLine_len]
      decide
    rw [hL, hR] at hlen
    exact absurd hlen (by decide)
  · decide

/-- A small fence-free two-line message for exercising `splitMessage`. -/
def demoChunkContent : String := "status: ok\nall services healthy"

/-- Witness for the amended C3 at a concrete fence-free input: the chunks
join back to the input, all fit the limit, and have even fence counts. -/
theorem c3_split_message_witness :
    joinLines (splitMessage demoChunkContent) = demoChunkContent ∧
      (∀ chunk ∈ splitMessage demoChunkContent,
        chunk.data.length ≤ CHUNK_LIMIT) ∧
      ∀ chunk ∈ splitMessage demoChunkContent, fenceCountStr chunk % 2 = 0 := by
  obtain ⟨h1, h2, h3⟩ := c3_split_message demoChunkContent
  exact ⟨h1 (by decide), h2 (by decide) (by decide), h3 (by decide)⟩

end CireilClaw
